import Mathlib

/-!
Verification of the DocuClear image-processing core.

This file gives a shallow embedding, in Lean 4 over exact arithmetic (`ℚ`,
with `ℝ` only where the source takes a real square root), of the numerical
core of the repository:

* the filter pipeline `applyFilters` / `applySharpen`,
* the perspective machinery `computeHomography` / `solveLinearSystem` /
  `performWarp`,
* the edge detector `detectDocumentEdges` (from the point where the
  downsampled pixel buffer has been obtained; the DOM canvas decode and
  resampling are external services, and for images whose larger dimension
  is at most 512 the downscale is the identity),
* the `validateDetection` area gate of the crop editor.

JavaScript `Number` arithmetic is modelled by exact rationals; a JavaScript
division whose denominator is zero (which would produce `NaN`/`Infinity`)
is modelled explicitly where it matters (the homogeneous denominator in
`performWarp`), and stores into `Uint8ClampedArray` are modelled by
clamping to `[0,255]` followed by round-half-to-even, stores into
`Uint8Array` by truncation modulo 256.
-/

/-- One RGBA sample, as stored in a `width*height*4` pixel buffer. -/
structure Pixel where
  r : ℕ
  g : ℕ
  b : ℕ
  a : ℕ
  deriving DecidableEq

/-- A pixel surface: pixel at column `x`, row `y` (index `y*width + x`
in the flat buffer). -/
def Surface : Type := ℕ → ℕ → Pixel

/-- Round half to even, the rounding used by `Uint8ClampedArray` stores. -/
def roundHalfEven (q : ℚ) : ℤ :=
  let f := q.floor
  if q - f < 1/2 then f
  else if 1/2 < q - f then f + 1
  else if f % 2 = 0 then f else f + 1

/-- Semantics of a store into a `Uint8ClampedArray` slot: clamp to
`[0,255]`, rounding half to even. -/
def toU8 (q : ℚ) : ℕ :=
  (max 0 (min 255 (roundHalfEven q))).toNat

/-- The `mode` field of `ProcessorSettings` (`src/types.ts`). -/
inductive FilterMode where
  | original
  | grayscale
  | binary
  | enhanced
  deriving DecidableEq

/-- `ProcessorSettings` (`src/types.ts`): threshold 0-255, sharpness 0-100,
brightness -100..100, contrast -100..100, rotation 0/90/180/270,
margin 0-50, mode. -/
structure ProcessorSettings where
  threshold : ℚ
  sharpness : ℚ
  brightness : ℚ
  contrast : ℚ
  rotation : ℕ
  margin : ℚ
  mode : FilterMode

/-- Luminance `0.299*r + 0.587*g + 0.114*b` used by the grayscale and
enhanced branches of `applyFilters` and by `preprocessImage`. -/
def lumOf (r g b : ℚ) : ℚ := 0.299 * r + 0.587 * g + 0.114 * b

/-- The denominator `255 * (259 - contrast)` of the contrast factor in
`applyFilters` (after the scaling `contrast = settings.contrast * 1.5`). -/
def contrastDenom (contrast : ℚ) : ℚ := 255 * (259 - contrast)

/-- `contrastFactor = (259 * (contrast + 255)) / (255 * (259 - contrast))`. -/
def contrastFactorOf (contrast : ℚ) : ℚ :=
  (259 * (contrast + 255)) / contrastDenom contrast

/-- The S-curve on luminance used by the `enhanced` mode. -/
def enhanceLum (lum : ℚ) : ℚ :=
  if 180 < lum then min 255 (lum + (lum - 180) * 1.2)
  else if lum < 100 then max 0 (lum - (100 - lum) * 0.5)
  else lum

/-- The per-pixel body of the `applyFilters` loop: grayscale for
grayscale/binary modes, tone curve for enhanced mode, brightness/contrast,
binary threshold, final clamp, and the clamped-byte store.  The alpha
channel (`data[i+3]`) is never written by the loop. -/
def filterPixel (s : ProcessorSettings) (p : Pixel) : Pixel :=
  let contrast : ℚ := s.contrast * 1.5
  let contrastFactor := contrastFactorOf contrast
  let brightness : ℚ := s.brightness * 1.5
  let r0 : ℚ := p.r
  let g0 : ℚ := p.g
  let b0 : ℚ := p.b
  -- 1. Grayscale logic
  let gray := lumOf r0 g0 b0
  let r1 := if s.mode = .grayscale ∨ s.mode = .binary then gray else r0
  let g1 := if s.mode = .grayscale ∨ s.mode = .binary then gray else g0
  let b1 := if s.mode = .grayscale ∨ s.mode = .binary then gray else b0
  -- 2. Enhanced mode: scale channels by newLum/lum (if lum > 0)
  let lum := lumOf r1 g1 b1
  let newLum := enhanceLum lum
  let scl := if 0 < lum then newLum / lum else 1
  let r2 := if s.mode = .enhanced then r1 * scl else r1
  let g2 := if s.mode = .enhanced then g1 * scl else g1
  let b2 := if s.mode = .enhanced then b1 * scl else b1
  -- 3. Brightness & contrast
  let r3 := contrastFactor * (r2 - 128) + 128 + brightness
  let g3 := contrastFactor * (g2 - 128) + 128 + brightness
  let b3 := contrastFactor * (b2 - 128) + 128 + brightness
  -- 4. Binary threshold
  let v := (r3 + g3 + b3) / 3
  let bin : ℚ := if s.threshold ≤ v then 255 else 0
  let r4 := if s.mode = .binary then bin else r3
  let g4 := if s.mode = .binary then bin else g3
  let b4 := if s.mode = .binary then bin else b3
  -- Final clamp and store
  Pixel.mk (toU8 (max 0 (min 255 r4))) (toU8 (max 0 (min 255 g4)))
    (toU8 (max 0 (min 255 b4))) p.a

/-- One output channel of the 5-tap sharpen convolution at an interior
pixel: kernel centre 5, the four axis neighbours -1, blended with the
original by `amount` and clamped. -/
def sharpenChan (center left right up down : ℕ) (amount : ℚ) : ℕ :=
  let val : ℚ := (center : ℚ) * 5 - left - right - up - down
  toU8 (max 0 (min 255 ((center : ℚ) + (val - center) * amount)))

/-- `applySharpen`: the convolution runs over the interior
(`1 ≤ x < w-1`, `1 ≤ y < h-1`) writing into a freshly created
(zero-initialised) `ImageData` buffer which then replaces the canvas
contents; interior alpha is copied from the source, border pixels keep
the buffer's initial value `(0,0,0,0)`. -/
def applySharpen (w h : ℕ) (src : Surface) (amount : ℚ) : Surface :=
  fun x y =>
    if 1 ≤ x ∧ x < w - 1 ∧ 1 ≤ y ∧ y < h - 1 then
      let c := src x y
      let l := src (x - 1) y
      let r := src (x + 1) y
      let u := src x (y - 1)
      let d := src x (y + 1)
      Pixel.mk (sharpenChan c.r l.r r.r u.r d.r amount)
        (sharpenChan c.g l.g r.g u.g d.g amount)
        (sharpenChan c.b l.b r.b u.b d.b amount)
        c.a
    else Pixel.mk 0 0 0 0

/-- `applyFilters(ctx, width, height, settings)`: the per-pixel pass over
all pixels, followed by the sharpen pass when `settings.sharpness > 0`
(with `amount = sharpness / 100`). -/
def applyFilters (w h : ℕ) (surf : Surface) (s : ProcessorSettings) : Surface :=
  let s1 : Surface := fun x y => filterPixel s (surf x y)
  if 0 < s.sharpness then applySharpen w h s1 (s.sharpness / 100) else s1

/-- A point with continuous image-space coordinates (`src/types.ts`). -/
structure Point where
  x : ℚ
  y : ℚ

/-- Shoelace sum of `validateDetection` (`src/components/CropEditor.tsx`):
`Σ (c_i.x * c_{i+1}.y - c_{i+1}.x * c_i.y)` cyclically. -/
def shoelaceSum (corners : List Point) : ℚ :=
  let n := corners.length
  (List.range n).foldl
    (fun acc i =>
      acc + ((corners.getD i ⟨0, 0⟩).x * (corners.getD ((i + 1) % n) ⟨0, 0⟩).y -
        (corners.getD ((i + 1) % n) ⟨0, 0⟩).x * (corners.getD i ⟨0, 0⟩).y))
    0

/-- Polygon area of `validateDetection`: `|shoelace| / 2`. -/
def shoelaceArea (corners : List Point) : ℚ := |shoelaceSum corners| / 2

/-- The ratio `area / (w*h)` computed by `validateDetection`. -/
def areaFrac (corners : List Point) (w h : ℚ) : ℚ :=
  shoelaceArea corners / (w * h)

/-- `validateDetection(corners, w, h)`: accept iff the area ratio is
strictly between 0.05 and 0.98. -/
def validateDetection (corners : List Point) (w h : ℚ) : Bool :=
  decide (0.05 < areaFrac corners w h) && decide (areaFrac corners w h < 0.98)

/-- A pixel is binary-pure when its colour channels agree and are 0 or 255. -/
def binaryPure (p : Pixel) : Prop :=
  p.r = p.g ∧ p.g = p.b ∧ (p.r = 0 ∨ p.r = 255)

/-- An all-white, fully opaque surface (used as a concrete test input). -/
def whiteSurface : Surface := fun _ _ => Pixel.mk 255 255 255 255

/-- Concrete settings with positive sharpness (mode `original`,
neutral brightness/contrast). -/
def sharpenSettings : ProcessorSettings :=
  ProcessorSettings.mk 128 50 0 0 0 0 FilterMode.original

/-- Concrete settings in binary mode with positive sharpness. -/
def binarySettings : ProcessorSettings :=
  ProcessorSettings.mk 128 50 0 0 0 0 FilterMode.binary

/-- A quadrilateral covering 99.5% of a 1000×1000 image. -/
def bigQuad : List Point :=
  [Point.mk 0 0, Point.mk 995 0, Point.mk 995 1000, Point.mk 0 1000]

/-- A quadrilateral covering 50% of a 1000×1000 image. -/
def halfQuad : List Point :=
  [Point.mk 0 0, Point.mk 1000 0, Point.mk 1000 500, Point.mk 0 500]

/-! ### The homography solver (`computeHomography` / `solveLinearSystem`) -/

/-- The state `(A, B)` of the Gaussian elimination in `solveLinearSystem`. -/
structure GaussState (n : ℕ) where
  A : Matrix (Fin n) (Fin n) ℚ
  B : Fin n → ℚ

/-- The partial-pivot search loop (`for k = i+1; k < n`): keep the row with
the strictly largest `|A[k][i]|`, starting from `(|A[i][i]|, i)`. -/
def pivotSearchAux {n : ℕ} (A : Matrix (Fin n) (Fin n) ℚ) (i : Fin n) :
    ℕ → ℚ × Fin n → ℚ × Fin n
  | j, p =>
    if h : j < n then
      pivotSearchAux A i (j + 1)
        (if p.1 < |A ⟨j, h⟩ i| then (|A ⟨j, h⟩ i|, ⟨j, h⟩) else p)
    else p
  termination_by j _ => n - j

/-- The chosen pivot `(maxEl, maxRow)` at elimination step `i`. -/
def pivotSearch {n : ℕ} (A : Matrix (Fin n) (Fin n) ℚ) (i : Fin n) : ℚ × Fin n :=
  pivotSearchAux A i ((i : ℕ) + 1) (|A i i|, i)

/-- The row swap of step `i`: rows `i` and `mr` exchange their entries in
columns `i` and onward (`for k = i; k < n`). -/
def swapRows {n : ℕ} (A : Matrix (Fin n) (Fin n) ℚ) (i mr : Fin n) :
    Matrix (Fin n) (Fin n) ℚ := fun r c =>
  if i ≤ c then
    if r = i then A mr c
    else if r = mr then A i c
    else A r c
  else A r c

/-- The right-hand sides swap rows `i` and `mr` (fully). -/
def swapVec {n : ℕ} (B : Fin n → ℚ) (i mr : Fin n) : Fin n → ℚ := fun r =>
  if r = i then B mr else if r = mr then B i else B r

/-- The elimination below pivot `i`: for `k > i`, `A[k][i]` is forced to 0
and `A[k][j] += c*A[i][j]` for `j > i`, with `c = -A[k][i]/A[i][i]`. -/
def elimBelow {n : ℕ} (A : Matrix (Fin n) (Fin n) ℚ) (i : Fin n) :
    Matrix (Fin n) (Fin n) ℚ := fun k c =>
  if i < k ∧ i ≤ c then
    if c = i then 0
    else A k c + -(A k i) / A i i * A i c
  else A k c

/-- The elimination applied to the right-hand sides:
`B[k] += c*B[i]` for `k > i`. -/
def elimBelowVec {n : ℕ} (A : Matrix (Fin n) (Fin n) ℚ) (B : Fin n → ℚ)
    (i : Fin n) : Fin n → ℚ := fun k =>
  if i < k then B k + -(A k i) / A i i * B i else B k

/-- One step of the elimination: pivot search, swap, then eliminate. -/
def gaussStep {n : ℕ} (i : Fin n) (s : GaussState n) : GaussState n :=
  let mr := (pivotSearch s.A i).2
  let A1 := swapRows s.A i mr
  let B1 := swapVec s.B i mr
  GaussState.mk (elimBelow A1 i) (elimBelowVec A1 B1 i)

/-- The forward-elimination loop `for i = 0; i < n`. -/
def forwardElimFrom {n : ℕ} : GaussState n → ℕ → GaussState n
  | s, i =>
    if h : i < n then forwardElimFrom (gaussStep ⟨i, h⟩ s) (i + 1) else s
  termination_by _ i => n - i

/-- The chosen pivot magnitudes (`maxEl`), in elimination order, starting
from step `i` in state `s`. -/
def gaussPivotsFrom {n : ℕ} : GaussState n → ℕ → List ℚ
  | s, i =>
    if h : i < n then
      (pivotSearch s.A ⟨i, h⟩).1 :: gaussPivotsFrom (gaussStep ⟨i, h⟩ s) (i + 1)
    else []
  termination_by _ i => n - i

/-- The pivot magnitudes chosen while solving `A·x = B`.  The source reads
the pivot and divides by it without any epsilon guard. -/
def gaussPivots {n : ℕ} (A : Matrix (Fin n) (Fin n) ℚ) (B : Fin n → ℚ) : List ℚ :=
  gaussPivotsFrom (GaussState.mk A B) 0

/-- The back-substitution loop `for i = n-1; i > -1`:
`x[i] = (B[i] - Σ_{j>i} A[i][j]*x[j]) / A[i][i]`, on `x` initialised to 0. -/
def backSubAux {n : ℕ} (s : GaussState n) : ℕ → (Fin n → ℚ) → (Fin n → ℚ)
  | 0, x => x
  | i + 1, x =>
    if h : i < n then
      backSubAux s i (Function.update x ⟨i, h⟩
        ((s.B ⟨i, h⟩ - ∑ j ∈ Finset.univ.filter (fun j : Fin n => i < (j : ℕ)),
          s.A ⟨i, h⟩ j * x j) / s.A ⟨i, h⟩ ⟨i, h⟩))
    else backSubAux s i x

/-- `solveLinearSystem(A, B)`: Gaussian elimination with partial pivoting
followed by back substitution.  There is no failure case: a (near-)zero
pivot is divided by regardless. -/
def solveLinearSystem {n : ℕ} (A : Matrix (Fin n) (Fin n) ℚ) (B : Fin n → ℚ) :
    Fin n → ℚ :=
  backSubAux (forwardElimFrom (GaussState.mk A B) 0) n (fun _ => 0)

/-- The row `[x, y, 1, 0, 0, 0, -x*u, -y*u]` pushed by `addRow` (indexed
by column; the final catch-all is column 7). -/
def homographyRowX (p q : Point) : Fin 8 → ℚ := fun c =>
  match (c : ℕ) with
  | 0 => p.x
  | 1 => p.y
  | 2 => 1
  | 3 => 0
  | 4 => 0
  | 5 => 0
  | 6 => -p.x * q.x
  | _ => -p.y * q.x

/-- The row `[0, 0, 0, x, y, 1, -x*v, -y*v]` pushed by `addRow`. -/
def homographyRowY (p q : Point) : Fin 8 → ℚ := fun c =>
  match (c : ℕ) with
  | 0 => 0
  | 1 => 0
  | 2 => 0
  | 3 => p.x
  | 4 => p.y
  | 5 => 1
  | 6 => -p.x * q.y
  | _ => -p.y * q.y

/-- The 8×8 matrix assembled by `computeHomography` (two rows per point
correspondence, in source order; the catch-all is row 7). -/
def homographyA (s1 s2 s3 s4 d1 d2 d3 d4 : Point) : Matrix (Fin 8) (Fin 8) ℚ :=
  Matrix.of fun r => match (r : ℕ) with
  | 0 => homographyRowX s1 d1
  | 1 => homographyRowY s1 d1
  | 2 => homographyRowX s2 d2
  | 3 => homographyRowY s2 d2
  | 4 => homographyRowX s3 d3
  | 5 => homographyRowY s3 d3
  | 6 => homographyRowX s4 d4
  | _ => homographyRowY s4 d4

/-- The right-hand side vector assembled by `computeHomography`. -/
def homographyB (d1 d2 d3 d4 : Point) : Fin 8 → ℚ := fun r =>
  match (r : ℕ) with
  | 0 => d1.x
  | 1 => d1.y
  | 2 => d2.x
  | 3 => d2.y
  | 4 => d3.x
  | 5 => d3.y
  | 6 => d4.x
  | _ => d4.y

/-- The identity homography coefficient vector `[1,0,0,0,1,0,0,0]`. -/
def identityH : Fin 8 → ℚ := fun c =>
  match (c : ℕ) with
  | 0 => 1
  | 4 => 1
  | _ => 0

/-- `computeHomography`: solve the 8×8 system and append the fixed `h8 = 1`. -/
def computeHomography (s1 s2 s3 s4 d1 d2 d3 d4 : Point) : List ℚ :=
  List.ofFn (solveLinearSystem (homographyA s1 s2 s3 s4 d1 d2 d3 d4)
    (homographyB d1 d2 d3 d4)) ++ [1]

/-! ### The perspective warp (`performWarp`) -/

/-- `Math.round`: round half toward positive infinity. -/
def jsRound (q : ℚ) : ℤ := (q + 1/2).floor

/-- Standard A4 aspect ratio `210 / 297`. -/
def A4_RATIO : ℚ := 210 / 297

/-- The opaque white pixel written outside the projected document. -/
def whitePixel : Pixel := Pixel.mk 255 255 255 255

/-- The inverse-mapped source coordinates of destination pixel `(x, y)`:
`dom = h6*x + h7*y + 1`, `srcX = (h0*x + h1*y + h2)/dom`,
`srcY = (h3*x + h4*y + h5)/dom`.  A zero denominator (which in JavaScript
produces non-finite coordinates that fail every subsequent comparison) is
modelled as `none`. -/
def warpSrcCoord (hm : Fin 8 → ℚ) (x y : ℕ) : Option (ℚ × ℚ) :=
  let dom := hm 6 * x + hm 7 * y + 1
  if dom = 0 then none
  else some ((hm 0 * x + hm 1 * y + hm 2) / dom, (hm 3 * x + hm 4 * y + hm 5) / dom)

/-- The bounds check `srcX >= 0 && srcX < srcWidth-1 && srcY >= 0 &&
srcY < srcHeight-1`. -/
def inSrcBounds (srcW srcH : ℕ) (sx sy : ℚ) : Prop :=
  0 ≤ sx ∧ sx < (srcW : ℚ) - 1 ∧ 0 ≤ sy ∧ sy < (srcH : ℚ) - 1

instance (srcW srcH : ℕ) (sx sy : ℚ) : Decidable (inSrcBounds srcW srcH sx sy) := by
  unfold inSrcBounds
  infer_instance

/-- Bilinear interpolation of the 4 surrounding source pixels:
`x0 = floor(srcX)`, `x1 = x0+1`, weights from the fractional offsets,
each channel stored through the clamped-byte store, alpha set to 255.
(`toNat` is exact here because the bounds check guarantees `srcX, srcY ≥ 0`.) -/
def bilinearPixel (srcData : Surface) (sx sy : ℚ) : Pixel :=
  let x0 := sx.floor.toNat
  let y0 := sy.floor.toNat
  let x1 := x0 + 1
  let y1 := y0 + 1
  let wx := sx - (x0 : ℚ)
  let wy := sy - (y0 : ℚ)
  let chan := fun (c : Pixel → ℕ) =>
    (c (srcData x0 y0) : ℚ) * (1 - wx) * (1 - wy) +
      (c (srcData x1 y0) : ℚ) * wx * (1 - wy) +
      (c (srcData x0 y1) : ℚ) * (1 - wx) * wy +
      (c (srcData x1 y1) : ℚ) * wx * wy
  Pixel.mk (toU8 (chan Pixel.r)) (toU8 (chan Pixel.g)) (toU8 (chan Pixel.b)) 255

/-- The body of the `performWarp` pixel loop. -/
def warpPixel (srcW srcH : ℕ) (srcData : Surface) (hm : Fin 8 → ℚ)
    (x y : ℕ) : Pixel :=
  match warpSrcCoord hm x y with
  | none => whitePixel
  | some (sx, sy) =>
    if inSrcBounds srcW srcH sx sy then bilinearPixel srcData sx sy
    else whitePixel

/-- The homography solved by `performWarp`, mapping the target rectangle
corners to the user corners. -/
def warpMatrix (c0 c1 c2 c3 : Point) (targetWidth targetHeight : ℕ) :
    Fin 8 → ℚ :=
  solveLinearSystem
    (homographyA ⟨0, 0⟩ ⟨targetWidth, 0⟩ ⟨targetWidth, targetHeight⟩
      ⟨0, targetHeight⟩ c0 c1 c2 c3)
    (homographyB c0 c1 c2 c3)

/-- `performWarp(img, corners, targetWidth)`: derive the target height from
the A4 ratio, solve the homography, and fill every destination pixel by
inverse mapping (the canvas/encode steps around it are external services). -/
def performWarp (srcW srcH : ℕ) (srcData : Surface) (c0 c1 c2 c3 : Point)
    (targetWidth : ℕ) : Surface :=
  let targetHeight := (jsRound ((targetWidth : ℚ) / A4_RATIO)).toNat
  let hm := warpMatrix c0 c1 c2 c3 targetWidth targetHeight
  fun x y => warpPixel srcW srcH srcData hm x y

/-- The homography system matrix for 4 collinear source points
`(0,0), (1,1), (2,2), (3,3)` (mapped to the unit square corners). -/
def collinearSrcA : Matrix (Fin 8) (Fin 8) ℚ :=
  homographyA ⟨0, 0⟩ ⟨1, 1⟩ ⟨2, 2⟩ ⟨3, 3⟩ ⟨0, 0⟩ ⟨1, 0⟩ ⟨1, 1⟩ ⟨0, 1⟩

/-- The right-hand side for the collinear configuration. -/
def collinearSrcB : Fin 8 → ℚ := homographyB ⟨0, 0⟩ ⟨1, 0⟩ ⟨1, 1⟩ ⟨0, 1⟩

/-- Strictly-lower-triangular zeros in the first `m` columns. -/
def LowerZero {n : ℕ} (m : ℕ) (A : Matrix (Fin n) (Fin n) ℚ) : Prop :=
  ∀ j k : Fin n, (j : ℕ) < m → j < k → A k j = 0

/-- The first `m` diagonal entries are nonzero. -/
def DiagNZ {n : ℕ} (m : ℕ) (A : Matrix (Fin n) (Fin n) ℚ) : Prop :=
  ∀ j : Fin n, (j : ℕ) < m → A j j ≠ 0

/-- Invariant carried through the elimination: triangularity below the
processed columns, nonzero processed pivots, preservation of the solution
set, and preservation of injectivity. -/
def GaussInv {n : ℕ} (m : ℕ) (s0 s : GaussState n) : Prop :=
  LowerZero m s.A ∧ DiagNZ m s.A ∧
    (∀ x, s.A.mulVec x = s.B ↔ s0.A.mulVec x = s0.B) ∧
    (Function.Injective s.A.mulVec ↔ Function.Injective s0.A.mulVec)

/-! ### The edge detector (`detectDocumentEdges`)

The detector is embedded from the point where the downsampled pixel buffer
(`imageData`) is available: the DOM decode/resample is an external service
(spec §6), and for images whose larger dimension is at most 512 the
downscale factor is `min(1, 512/max(w,h)) = 1`, so the buffer is the
source image itself.  All integer-valued intermediates are computed in
integer form: `toU8Frac num den` is the clamped-byte store of the exact
value `num/den`, and `natSqrt` is `⌊√n⌋`, the value a `Uint8Array` store
keeps of `Math.sqrt` (modulo 256). -/

/-- Largest `k` with `k*k ≤ n`, i.e. `⌊√n⌋` (structural definition). -/
def natSqrt (n : ℕ) : ℕ :=
  (List.range (n + 1)).foldl (fun acc k => if k * k ≤ n then k else acc) 0

/-- Round half to even for the exact fraction `num/den` (`den > 0`):
`f = ⌊num/den⌋`, fractional part compared with 1/2 via
`2*(num - f*den)` versus `den`. -/
def roundHalfEvenFrac (num den : ℤ) : ℤ :=
  let f := num.ediv den
  let r2 := 2 * (num - f * den)
  if r2 < den then f
  else if den < r2 then f + 1
  else if f % 2 = 0 then f else f + 1

/-- Clamped-byte store of the exact fraction `num/den` (`den > 0`):
integer form of `toU8 (num/den)`. -/
def toU8Frac (num den : ℤ) : ℕ :=
  (max 0 (min 255 (roundHalfEvenFrac num den))).toNat

/-- First pass of `preprocessImage`: grayscale byte
`0.299r + 0.587g + 0.114b` stored into a clamped byte array. -/
def tempGray (data : Surface) (x y : ℕ) : ℕ :=
  toU8Frac ((299 * (data x y).r + 587 * (data x y).g + 114 * (data x y).b : ℕ) : ℤ) 1000

/-- Second pass of `preprocessImage`: 3×3 box blur `sum/9` on the
interior; the 1-px border of the output array keeps its initial value 0. -/
def grayBlur (data : Surface) (sw sh : ℕ) (x y : ℕ) : ℕ :=
  if 1 ≤ x ∧ x < sw - 1 ∧ 1 ≤ y ∧ y < sh - 1 then
    toU8Frac ((tempGray data (x-1) (y-1) + tempGray data x (y-1) +
      tempGray data (x+1) (y-1) + tempGray data (x-1) y + tempGray data x y +
      tempGray data (x+1) y + tempGray data (x-1) (y+1) + tempGray data x (y+1) +
      tempGray data (x+1) (y+1) : ℕ) : ℤ) 9
  else 0

/-- Sobel Gx (`-1 0 1 / -2 0 2 / -1 0 1`). -/
def sobelGx (g : ℕ → ℕ → ℕ) (x y : ℕ) : ℤ :=
  -(g (x-1) (y-1) : ℤ) + g (x+1) (y-1) - 2 * g (x-1) y + 2 * g (x+1) y -
    g (x-1) (y+1) + g (x+1) (y+1)

/-- Sobel Gy (`-1 -2 -1 / 0 0 0 / 1 2 1`). -/
def sobelGy (g : ℕ → ℕ → ℕ) (x y : ℕ) : ℤ :=
  -(g (x-1) (y-1) : ℤ) - 2 * g x (y-1) - g (x+1) (y-1) +
    g (x-1) (y+1) + 2 * g x (y+1) + g (x+1) (y+1)

/-- Squared Sobel magnitude `Gx² + Gy²`. -/
def sobelMagSq (g : ℕ → ℕ → ℕ) (x y : ℕ) : ℕ :=
  (sobelGx g x y ^ 2 + sobelGy g x y ^ 2).toNat

/-- The byte stored into the `Uint8Array` `edges`: `ToUint8(mag)` is
`⌊√(Gx²+Gy²)⌋ mod 256` on the interior, 0 elsewhere. -/
def edgesByte (data : Surface) (sw sh : ℕ) (x y : ℕ) : ℕ :=
  if 1 ≤ x ∧ x < sw - 1 ∧ 1 ≤ y ∧ y < sh - 1 then
    natSqrt (sobelMagSq (grayBlur data sw sh) x y) % 256
  else 0

/-- `totalMag` of `applySobel`: the exact real magnitudes summed over the
interior. -/
noncomputable def sobelTotalMag (data : Surface) (sw sh : ℕ) : ℝ :=
  ∑ y ∈ Finset.Ico 1 (sh - 1), ∑ x ∈ Finset.Ico 1 (sw - 1),
    Real.sqrt (sobelMagSq (grayBlur data sw sh) x y)

/-- `count` of `applySobel` (one increment per interior pixel). -/
def sobelCount (sw sh : ℕ) : ℕ := (sw - 2) * (sh - 2)

/-- `avgGradient = count > 0 ? totalMag / count : 0`. -/
noncomputable def avgGradient (data : Surface) (sw sh : ℕ) : ℝ :=
  if 0 < sobelCount sw sh then sobelTotalMag data sw sh / sobelCount sw sh else 0

/-- `threshold = max(30, avgGradient * 2.5)`. -/
noncomputable def detectThreshold (data : Surface) (sw sh : ℕ) : ℝ :=
  max 30 (avgGradient data sw sh * 2.5)

/-- The qualifying test `edges[idx] > threshold`: the comparison is made
on the stored (truncated) byte against the real threshold. -/
def qualifies (data : Surface) (sw sh : ℕ) (x y : ℕ) : Prop :=
  (edgesByte data sw sh x y : ℝ) > detectThreshold data sw sh

open scoped Classical in
/-- Boolean form of the qualifying test. -/
noncomputable def qualB (data : Surface) (sw sh : ℕ) (x y : ℕ) : Bool :=
  decide (qualifies data sw sh x y)

/-- The 5% safety margin `Math.floor(min(sw, sh) * 0.05)`. -/
def detectMargin (sw sh : ℕ) : ℕ := min sw sh * 5 / 100

/-- State of the corner scan: qualifying-pixel count, running extrema of
`x+y` and `x-y` (`none` models the initial ±Infinity), and the four
candidate corners. -/
structure ScanState where
  found : ℕ
  minSum : Option ℤ
  maxSum : Option ℤ
  minDiff : Option ℤ
  maxDiff : Option ℤ
  tl : ℕ × ℕ
  tr : ℕ × ℕ
  br : ℕ × ℕ
  bl : ℕ × ℕ

/-- Initial scan state (`tl=(0,0)`, `tr=(sw,0)`, `br=(sw,sh)`, `bl=(0,sh)`,
extrema at ±Infinity). -/
def initialScanState (sw sh : ℕ) : ScanState :=
  ScanState.mk 0 none none none none (0, 0) (sw, 0) (sw, sh) (0, sh)

/-- `v < m`, where `m = none` is `+Infinity`. -/
def ltOpt (v : ℤ) (o : Option ℤ) : Prop :=
  match o with
  | none => True
  | some m => v < m

instance (v : ℤ) (o : Option ℤ) : Decidable (ltOpt v o) := by
  unfold ltOpt
  cases o <;> infer_instance

/-- `v > m`, where `m = none` is `-Infinity`. -/
def gtOpt (v : ℤ) (o : Option ℤ) : Prop :=
  match o with
  | none => True
  | some m => m < v

instance (v : ℤ) (o : Option ℤ) : Decidable (gtOpt v o) := by
  unfold gtOpt
  cases o <;> infer_instance

/-- The body of the scan for one qualifying pixel: count it and update the
four extrema (strict comparisons: ties keep the earlier pixel). -/
def scanStep (x y : ℕ) (st : ScanState) : ScanState :=
  let sum : ℤ := (x : ℤ) + y
  let diff : ℤ := (x : ℤ) - y
  let st1 := { st with found := st.found + 1 }
  let st2 := if ltOpt sum st1.minSum then
    { st1 with minSum := some sum, tl := (x, y) } else st1
  let st3 := if gtOpt sum st2.maxSum then
    { st2 with maxSum := some sum, br := (x, y) } else st2
  let st4 := if ltOpt diff st3.minDiff then
    { st3 with minDiff := some diff, bl := (x, y) } else st3
  let st5 := if gtOpt diff st4.maxDiff then
    { st4 with maxDiff := some diff, tr := (x, y) } else st4
  st5

/-- One row of the scan (`for x = margin; x < sw - margin`). -/
noncomputable def scanRowFold (data : Surface) (sw sh y : ℕ) (st : ScanState)
    (l : List ℕ) : ScanState :=
  l.foldl (fun st x => if qualB data sw sh x y then scanStep x y st else st) st

/-- The full corner scan, row-major over the margin-excluded region. -/
noncomputable def detectScan (data : Surface) (sw sh : ℕ) : ScanState :=
  (List.range' (detectMargin sw sh) (sh - 2 * detectMargin sw sh)).foldl
    (fun st y => scanRowFold data sw sh y st
      (List.range' (detectMargin sw sh) (sw - 2 * detectMargin sw sh)))
    (initialScanState sw sh)

/-- `detectDocumentEdges` from the downsampled buffer on: reject (`none`)
when `foundPixels < sw * sh * 0.001`, else return the four corners scaled
back by `1/scale`. -/
noncomputable def detectDocumentEdges (sw sh : ℕ) (data : Surface) (scale : ℚ) :
    Option (List Point) :=
  let st := detectScan data sw sh
  if (st.found : ℚ) < (sw : ℚ) * sh * 0.001 then none
  else
    let unscale := 1 / scale
    some [Point.mk (st.tl.1 * unscale) (st.tl.2 * unscale),
      Point.mk (st.tr.1 * unscale) (st.tr.2 * unscale),
      Point.mk (st.br.1 * unscale) (st.br.2 * unscale),
      Point.mk (st.bl.1 * unscale) (st.bl.2 * unscale)]

/-- The concrete 101×20 counterexample image: black except two gray-34
pixels at `(1,1)` and `(1,2)`. -/
def c5img : Surface := fun x y =>
  if x = 1 ∧ (y = 1 ∨ y = 2) then Pixel.mk 34 34 34 255 else Pixel.mk 0 0 0 255

/-- The per-pixel real Sobel magnitude of the counterexample image. -/
noncomputable def c5F (x y : ℕ) : ℝ :=
  Real.sqrt (sobelMagSq (grayBlur c5img 101 20) x y)

/-! ### Basic properties of the byte store -/

theorem ratFloor_eq_intFloor (q : ℚ) : q.floor = ⌊q⌋ := by
  rw [Rat.floor_def, Rat.floor_def']

theorem roundHalfEven_intCast (z : ℤ) : roundHalfEven (z : ℚ) = z := by
  unfold roundHalfEven
  rw [ratFloor_eq_intFloor]
  norm_num

theorem toU8_le (q : ℚ) : toU8 q ≤ 255 := by
  unfold toU8
  have h : max 0 (min 255 (roundHalfEven q)) ≤ (255 : ℤ) := by
    apply max_le
    · norm_num
    · exact le_trans (min_le_left _ _) le_rfl
  omega

theorem toU8_zero : toU8 0 = 0 := by
  have h := roundHalfEven_intCast 0
  simp at h
  simp [toU8, h]

theorem toU8_255 : toU8 255 = 255 := by
  have h := roundHalfEven_intCast 255
  norm_num at h
  simp [toU8, h]

theorem toU8_of_nonpos {q : ℚ} (h : q ≤ 0) : toU8 (max 0 (min 255 q)) = 0 := by
  have h1 : min 255 q = q := min_eq_right (le_trans h (by norm_num))
  have h2 : max 0 (min 255 q) = 0 := by
    rw [h1]
    exact max_eq_left h
  rw [h2, toU8_zero]

theorem toU8_of_ge_255 {q : ℚ} (h : 255 ≤ q) : toU8 (max 0 (min 255 q)) = 255 := by
  have h1 : min 255 q = 255 := min_eq_left h
  have h2 : max 0 (min 255 q) = (255 : ℚ) := by
    rw [h1]; norm_num
  rw [h2, toU8_255]

/-! ### Filter pipeline lemmas -/

theorem filterPixel_alpha (s : ProcessorSettings) (p : Pixel) :
    (filterPixel s p).a = p.a := rfl

theorem filterPixel_le_255 (s : ProcessorSettings) (p : Pixel) :
    (filterPixel s p).r ≤ 255 ∧ (filterPixel s p).g ≤ 255 ∧ (filterPixel s p).b ≤ 255 := by
  refine ⟨toU8_le _, toU8_le _, toU8_le _⟩

theorem toU8_clamp_ite (c : Prop) [Decidable c] :
    toU8 (max 0 (min 255 (if c then (255 : ℚ) else 0))) = if c then 255 else 0 := by
  split
  · exact toU8_of_ge_255 le_rfl
  · exact toU8_of_nonpos le_rfl

theorem filterPixel_binary (s : ProcessorSettings) (hm : s.mode = FilterMode.binary)
    (p : Pixel) : binaryPure (filterPixel s p) := by
  unfold binaryPure filterPixel
  simp only [hm]
  simp only [eq_self_iff_true, or_true, reduceCtorEq, if_true, if_false, ite_true, ite_false]
  refine ⟨trivial, trivial, ?_⟩
  rw [toU8_clamp_ite]
  split
  · right; rfl
  · left; rfl

theorem sharpenChan_binary {c l r u d : ℕ} {amount : ℚ} (ham : 0 ≤ amount)
    (hc : c = 0 ∨ c = 255) (hl : l ≤ 255) (hr : r ≤ 255) (hu : u ≤ 255) (hd : d ≤ 255) :
    sharpenChan c l r u d amount = c := by
  unfold sharpenChan
  rcases hc with hc | hc
  · subst hc
    have hval : ((0 : ℕ) : ℚ) * 5 - l - r - u - d ≤ 0 := by
      push_cast
      have : (0:ℚ) ≤ (l:ℚ) + r + u + d := by positivity
      linarith
    have hres : ((0:ℕ) : ℚ) + ((((0 : ℕ) : ℚ) * 5 - l - r - u - d) - ((0:ℕ):ℚ)) * amount ≤ 0 := by
      push_cast
      push_cast at hval
      nlinarith
    rw [toU8_of_nonpos hres]
  · subst hc
    have hval : (255 : ℚ) ≤ ((255 : ℕ) : ℚ) * 5 - l - r - u - d := by
      have hl' : (l : ℚ) ≤ 255 := by exact_mod_cast hl
      have hr' : (r : ℚ) ≤ 255 := by exact_mod_cast hr
      have hu' : (u : ℚ) ≤ 255 := by exact_mod_cast hu
      have hd' : (d : ℚ) ≤ 255 := by exact_mod_cast hd
      push_cast
      linarith
    have hres : (255 : ℚ) ≤ ((255:ℕ) : ℚ) + ((((255 : ℕ) : ℚ) * 5 - l - r - u - d) - ((255:ℕ):ℚ)) * amount := by
      push_cast
      push_cast at hval
      nlinarith
    rw [toU8_of_ge_255 hres]

theorem applySharpen_binaryPure (w h : ℕ) (src : Surface) (amount : ℚ)
    (ham : 0 ≤ amount) (hsrc : ∀ x y, binaryPure (src x y)) (x y : ℕ) :
    binaryPure (applySharpen w h src amount x y) := by
  unfold applySharpen
  split
  · obtain ⟨hc1, hc2, hc3⟩ := hsrc x y
    obtain ⟨hl1, hl2, hl3⟩ := hsrc (x-1) y
    obtain ⟨hr1, hr2, hr3⟩ := hsrc (x+1) y
    obtain ⟨hu1, hu2, hu3⟩ := hsrc x (y-1)
    obtain ⟨hd1, hd2, hd3⟩ := hsrc x (y+1)
    have hb : ∀ n : ℕ, n = 0 ∨ n = 255 → n ≤ 255 := by rintro n (rfl | rfl) <;> norm_num
    have e1 : sharpenChan (src x y).r (src (x-1) y).r (src (x+1) y).r (src x (y-1)).r (src x (y+1)).r amount = (src x y).r :=
      sharpenChan_binary ham hc3 (hb _ hl3) (hb _ hr3) (hb _ hu3) (hb _ hd3)
    have e2 : sharpenChan (src x y).g (src (x-1) y).g (src (x+1) y).g (src x (y-1)).g (src x (y+1)).g amount = (src x y).g := by
      rw [← hc1, ← hl1, ← hr1, ← hu1, ← hd1]
      exact e1
    have e3 : sharpenChan (src x y).b (src (x-1) y).b (src (x+1) y).b (src x (y-1)).b (src x (y+1)).b amount = (src x y).b := by
      rw [← hc2, ← hc1, ← hl2, ← hl1, ← hr2, ← hr1, ← hu2, ← hu1, ← hd2, ← hd1]
      exact e1
    refine ⟨?_, ?_, ?_⟩
    · exact e1.trans (hc1.trans e2.symm)
    · exact e2.trans (hc2.trans e3.symm)
    · exact Or.imp (fun h0 => e1.trans h0) (fun h255 => e1.trans h255) hc3
  · exact ⟨rfl, rfl, Or.inl rfl⟩

theorem applySharpen_alpha_interior (w h : ℕ) (src : Surface) (amount : ℚ)
    (x y : ℕ) (hin : 1 ≤ x ∧ x < w - 1 ∧ 1 ≤ y ∧ y < h - 1) :
    (applySharpen w h src amount x y).a = (src x y).a := by
  unfold applySharpen
  rw [if_pos hin]

theorem applySharpen_alpha_border (w h : ℕ) (src : Surface) (amount : ℚ)
    (x y : ℕ) (hout : ¬(1 ≤ x ∧ x < w - 1 ∧ 1 ≤ y ∧ y < h - 1)) :
    (applySharpen w h src amount x y).a = 0 := by
  unfold applySharpen
  rw [if_neg hout]

/-- C2: for every input surface and every settings value in binary mode
(including sharpness > 0, which runs the post-pass sharpen convolution),
every pixel of the `applyFilters` output has R = G = B with the common
value in {0, 255}. -/
theorem binary_mode_purity (w h : ℕ) (surf : Surface) (s : ProcessorSettings)
    (hm : s.mode = FilterMode.binary) (x y : ℕ) :
    binaryPure (applyFilters w h surf s x y) := by
  unfold applyFilters
  split
  · next hs =>
    apply applySharpen_binaryPure
    · exact div_nonneg (le_of_lt hs) (by norm_num)
    · intro x' y'
      exact filterPixel_binary s hm _
  · exact filterPixel_binary s hm _

/-- Witness for C2 at a concrete surface and binary settings. -/
theorem binary_mode_purity_witness :
    binarySettings.mode = FilterMode.binary ∧
      binaryPure (applyFilters 3 3 whiteSurface binarySettings 1 1) :=
  ⟨rfl, binary_mode_purity 3 3 whiteSurface binarySettings rfl 1 1⟩

/-- C9: for all input pixel values and all settings, every R, G, B channel
of every pixel of the `applyFilters` output lies in [0, 255] (channels are
naturals, so only the upper bound is a constraint); this covers both the
per-pixel pass and the sharpen pass. -/
theorem clamp_invariant (w h : ℕ) (surf : Surface) (s : ProcessorSettings) (x y : ℕ) :
    (applyFilters w h surf s x y).r ≤ 255 ∧ (applyFilters w h surf s x y).g ≤ 255 ∧
      (applyFilters w h surf s x y).b ≤ 255 := by
  unfold applyFilters
  split
  · unfold applySharpen
    split
    · exact ⟨toU8_le _, toU8_le _, toU8_le _⟩
    · exact ⟨by norm_num, by norm_num, by norm_num⟩
  · exact filterPixel_le_255 s _

/-- Counterexample to C4 as stated: with sharpness 50 the sharpen pass
writes a fresh zero-initialised buffer whose border pixels are never
filled, so the border alpha drops from 255 to 0. -/
theorem alpha_not_preserved_at_border :
    (applyFilters 3 3 whiteSurface sharpenSettings 0 0).a = 0 ∧
      (whiteSurface 0 0).a = 255 := by
  constructor
  · unfold applyFilters
    rw [if_pos (show (0:ℚ) < sharpenSettings.sharpness by norm_num [sharpenSettings])]
    unfold applySharpen
    rw [if_neg (by omega)]
  · rfl

/-- C4 (amended): `applyFilters` leaves alpha unchanged at every pixel when
sharpness ≤ 0; when sharpness > 0 it leaves alpha unchanged at interior
pixels, while the 1-px border pixels of the sharpen pass get alpha 0 from
the fresh zero-initialised output buffer. -/
theorem alpha_passthrough_amended (w h : ℕ) (surf : Surface) (s : ProcessorSettings) :
    (¬ 0 < s.sharpness → ∀ x y, (applyFilters w h surf s x y).a = (surf x y).a) ∧
    (0 < s.sharpness → ∀ x y,
      ((1 ≤ x ∧ x < w - 1 ∧ 1 ≤ y ∧ y < h - 1) →
        (applyFilters w h surf s x y).a = (surf x y).a) ∧
      (¬(1 ≤ x ∧ x < w - 1 ∧ 1 ≤ y ∧ y < h - 1) →
        (applyFilters w h surf s x y).a = 0)) := by
  constructor
  · intro hs x y
    unfold applyFilters
    rw [if_neg hs]
    exact filterPixel_alpha s _
  · intro hs x y
    unfold applyFilters
    rw [if_pos hs]
    constructor
    · intro hin
      rw [applySharpen_alpha_interior w h _ _ x y hin]
      exact filterPixel_alpha s _
    · intro hout
      exact applySharpen_alpha_border w h _ _ x y hout

/-- Witness for the amended C4 at a concrete surface, interior pixel. -/
theorem alpha_passthrough_amended_witness :
    (0:ℚ) < sharpenSettings.sharpness ∧
      (applyFilters 3 3 whiteSurface sharpenSettings 1 1).a = (whiteSurface 1 1).a := by
  refine ⟨by norm_num [sharpenSettings], ?_⟩
  exact ((alpha_passthrough_amended 3 3 whiteSurface sharpenSettings).2
    (by norm_num [sharpenSettings]) 1 1).1 (by omega)

/-- C10: for contrast in the documented range [-100, 100] the contrast
factor denominator `255 * (259 - contrast * 1.5)` is nonzero, so
`applyFilters` never divides by zero when computing `contrastFactor`. -/
theorem contrast_denominator_nonzero (c : ℚ) (h1 : -100 ≤ c) (h2 : c ≤ 100) :
    contrastDenom (c * 1.5) ≠ 0 := by
  unfold contrastDenom
  have h3 : (0:ℚ) < 259 - c * 1.5 := by nlinarith
  exact mul_ne_zero (by norm_num) (ne_of_gt h3)

/-- Witness for C10 at contrast 50. -/
theorem contrast_denominator_nonzero_witness :
    ((-100 : ℚ) ≤ 50 ∧ (50 : ℚ) ≤ 100) ∧ contrastDenom (50 * 1.5) ≠ 0 :=
  ⟨⟨by norm_num, by norm_num⟩,
    contrast_denominator_nonzero 50 (by norm_num) (by norm_num)⟩

/-- C6: `validateDetection` returns true exactly when the shoelace area
divided by `w*h` is strictly between 0.05 and 0.98; a quadrilateral
covering 99.5% of a 1000×1000 image fails, one covering 50% passes. -/
theorem validateDetection_area_gate :
    (∀ (corners : List Point) (w h : ℚ),
      validateDetection corners w h = true ↔
        (0.05 < areaFrac corners w h ∧ areaFrac corners w h < 0.98)) ∧
    validateDetection bigQuad 1000 1000 = false ∧
    validateDetection halfQuad 1000 1000 = true := by
  refine ⟨?_, ?_, ?_⟩
  · intro corners w h
    unfold validateDetection
    simp
  · have hsum : shoelaceSum bigQuad = 1990000 := by
      unfold shoelaceSum bigQuad
      norm_num [List.range_succ, List.getD]
    unfold validateDetection areaFrac shoelaceArea
    rw [hsum]
    norm_num
  · have hsum : shoelaceSum halfQuad = 1000000 := by
      unfold shoelaceSum halfQuad
      norm_num [List.range_succ, List.getD]
    unfold validateDetection areaFrac shoelaceArea
    rw [hsum]
    norm_num

/-! ### Pivot search -/

theorem pivotSearchAux_spec {n : ℕ} (A : Matrix (Fin n) (Fin n) ℚ) (i : Fin n) :
    ∀ (fuel j : ℕ) (p : ℚ × Fin n), n - j ≤ fuel → (i : ℕ) < j → i ≤ p.2 →
      p.1 = |A p.2 i| →
      (∀ k : Fin n, i ≤ k → (k : ℕ) < j → |A k i| ≤ p.1) →
      i ≤ (pivotSearchAux A i j p).2 ∧
        (pivotSearchAux A i j p).1 = |A (pivotSearchAux A i j p).2 i| ∧
        (∀ k : Fin n, i ≤ k → |A k i| ≤ (pivotSearchAux A i j p).1) := by
  intro fuel
  induction fuel with
  | zero =>
    intro j p hfuel hij hip hval hcov
    have hjn : ¬ j < n := by omega
    rw [pivotSearchAux, dif_neg hjn]
    exact ⟨hip, hval, fun k hik => hcov k hik (by omega)⟩
  | succ fuel ih =>
    intro j p hfuel hij hip hval hcov
    by_cases hjn : j < n
    · rw [pivotSearchAux, dif_pos hjn]
      by_cases hlt : p.1 < |A ⟨j, hjn⟩ i|
      · rw [if_pos hlt]
        apply ih (j + 1) _ (by omega) (by omega)
        · exact Fin.le_def.mpr (le_of_lt hij)
        · rfl
        · intro k hik hkj
          rcases Nat.lt_succ_iff_lt_or_eq.mp hkj with hkj' | hkeq
          · exact le_trans (hcov k hik hkj') (le_of_lt hlt)
          · have hk : k = ⟨j, hjn⟩ := Fin.ext hkeq
            rw [hk]
      · rw [if_neg hlt]
        apply ih (j + 1) p (by omega) (by omega) hip hval
        intro k hik hkj
        rcases Nat.lt_succ_iff_lt_or_eq.mp hkj with hkj' | hkeq
        · exact hcov k hik hkj'
        · have hk : k = ⟨j, hjn⟩ := Fin.ext hkeq
          rw [hk]
          exact le_of_not_lt hlt
    · rw [pivotSearchAux, dif_neg hjn]
      exact ⟨hip, hval, fun k hik => hcov k hik (by omega)⟩

theorem pivotSearch_spec {n : ℕ} (A : Matrix (Fin n) (Fin n) ℚ) (i : Fin n) :
    i ≤ (pivotSearch A i).2 ∧
      (pivotSearch A i).1 = |A (pivotSearch A i).2 i| ∧
      ∀ k : Fin n, i ≤ k → |A k i| ≤ (pivotSearch A i).1 := by
  apply pivotSearchAux_spec A i (n - ((i : ℕ) + 1)) ((i : ℕ) + 1) _ le_rfl
    (by omega) (le_refl i) rfl
  intro k hik hki
  have hk : k = i := Fin.ext (by
    have := Fin.le_def.mp hik
    omega)
  rw [hk]

theorem pivot_zero_col {n : ℕ} (A : Matrix (Fin n) (Fin n) ℚ) (i : Fin n)
    (hp : (pivotSearch A i).1 = 0) : ∀ k : Fin n, i ≤ k → A k i = 0 := by
  intro k hk
  have h := (pivotSearch_spec A i).2.2 k hk
  rw [hp] at h
  exact abs_eq_zero.mp (le_antisymm h (abs_nonneg _))

theorem pivot_ne_zero_entry {n : ℕ} (A : Matrix (Fin n) (Fin n) ℚ) (i : Fin n)
    (hp : (pivotSearch A i).1 ≠ 0) : A (pivotSearch A i).2 i ≠ 0 := by
  intro h0
  exact hp (by rw [(pivotSearch_spec A i).2.1, h0, abs_zero])

/-! ### The row swap -/

theorem swapVec_apply {n : ℕ} (B : Fin n → ℚ) (i mr r : Fin n) :
    swapVec B i mr r = B (Equiv.swap i mr r) := by
  unfold swapVec
  by_cases hri : r = i
  · subst hri; rw [if_pos rfl, Equiv.swap_apply_left]
  · rw [if_neg hri]
    by_cases hrm : r = mr
    · subst hrm; rw [if_pos rfl, Equiv.swap_apply_right]
    · rw [if_neg hrm, Equiv.swap_apply_of_ne_of_ne hri hrm]

theorem swapRows_eq_swap {n : ℕ} (A : Matrix (Fin n) (Fin n) ℚ) (i mr : Fin n)
    (hmr : i ≤ mr) (hLZ : LowerZero (i : ℕ) A) :
    swapRows A i mr = fun r c => A (Equiv.swap i mr r) c := by
  funext r c
  unfold swapRows
  by_cases hc : i ≤ c
  · rw [if_pos hc]
    by_cases hri : r = i
    · subst hri; rw [if_pos rfl, Equiv.swap_apply_left]
    · rw [if_neg hri]
      by_cases hrm : r = mr
      · subst hrm; rw [if_pos rfl, Equiv.swap_apply_right]
      · rw [if_neg hrm, Equiv.swap_apply_of_ne_of_ne hri hrm]
  · rw [if_neg hc]
    have hci : c < i := lt_of_not_le hc
    have hz : ∀ k : Fin n, c < k → A k c = 0 := fun k hk =>
      hLZ c k (Fin.lt_def.mp hci) hk
    by_cases hri : r = i
    · rw [hri, Equiv.swap_apply_left, hz i hci, hz mr (lt_of_lt_of_le hci hmr)]
    · by_cases hrm : r = mr
      · rw [hrm, Equiv.swap_apply_right, hz mr (lt_of_lt_of_le hci hmr), hz i hci]
      · rw [Equiv.swap_apply_of_ne_of_ne hri hrm]

theorem swapRows_mulVec {n : ℕ} (A : Matrix (Fin n) (Fin n) ℚ) (i mr : Fin n)
    (hmr : i ≤ mr) (hLZ : LowerZero (i : ℕ) A) (x : Fin n → ℚ) (r : Fin n) :
    (swapRows A i mr).mulVec x r = A.mulVec x (Equiv.swap i mr r) := by
  rw [swapRows_eq_swap A i mr hmr hLZ]
  rfl

theorem swap_solution_iff {n : ℕ} (A : Matrix (Fin n) (Fin n) ℚ) (B : Fin n → ℚ)
    (i mr : Fin n) (hmr : i ≤ mr) (hLZ : LowerZero (i : ℕ) A) (x : Fin n → ℚ) :
    (swapRows A i mr).mulVec x = swapVec B i mr ↔ A.mulVec x = B := by
  constructor
  · intro h
    funext r
    have h2 := congrFun h (Equiv.swap i mr r)
    rw [swapRows_mulVec A i mr hmr hLZ, swapVec_apply, Equiv.swap_apply_self] at h2
    exact h2
  · intro h
    funext r
    rw [swapRows_mulVec A i mr hmr hLZ, swapVec_apply, h]

theorem swap_injective_iff {n : ℕ} (A : Matrix (Fin n) (Fin n) ℚ) (i mr : Fin n)
    (hmr : i ≤ mr) (hLZ : LowerZero (i : ℕ) A) :
    Function.Injective (swapRows A i mr).mulVec ↔ Function.Injective A.mulVec := by
  constructor
  · intro h x y hxy
    apply h
    funext r
    rw [swapRows_mulVec A i mr hmr hLZ, swapRows_mulVec A i mr hmr hLZ,
      congrFun hxy (Equiv.swap i mr r)]
  · intro h x y hxy
    apply h
    funext r
    have h2 := congrFun hxy (Equiv.swap i mr r)
    rw [swapRows_mulVec A i mr hmr hLZ, swapRows_mulVec A i mr hmr hLZ,
      Equiv.swap_apply_self] at h2
    exact h2

/-! ### The elimination below the pivot -/

theorem elimBelow_row_le {n : ℕ} (A : Matrix (Fin n) (Fin n) ℚ) (i k : Fin n)
    (hk : ¬ i < k) (c : Fin n) : elimBelow A i k c = A k c := by
  unfold elimBelow
  rw [if_neg (fun hc => hk hc.1)]

theorem elimBelow_row_gt {n : ℕ} (A : Matrix (Fin n) (Fin n) ℚ) (i : Fin n)
    (hLZ : LowerZero (i : ℕ) A) (hpiv : A i i ≠ 0) (k : Fin n) (hk : i < k)
    (c : Fin n) : elimBelow A i k c = A k c + -(A k i) / A i i * A i c := by
  unfold elimBelow
  by_cases hc : i ≤ c
  · rw [if_pos ⟨hk, hc⟩]
    by_cases hci : c = i
    · subst hci
      rw [if_pos rfl, div_mul_cancel₀ _ hpiv]
      ring
    · rw [if_neg hci]
  · rw [if_neg (fun hcon => hc hcon.2)]
    have hz : A i c = 0 := hLZ c i (Fin.lt_def.mp (lt_of_not_le hc)) (lt_of_not_le hc)
    rw [hz]
    ring

theorem elimBelow_mulVec {n : ℕ} (A : Matrix (Fin n) (Fin n) ℚ) (i : Fin n)
    (hLZ : LowerZero (i : ℕ) A) (hpiv : A i i ≠ 0) (x : Fin n → ℚ) (k : Fin n) :
    (elimBelow A i).mulVec x k =
      if i < k then A.mulVec x k + -(A k i) / A i i * A.mulVec x i
      else A.mulVec x k := by
  by_cases hk : i < k
  · rw [if_pos hk]
    unfold Matrix.mulVec Matrix.dotProduct
    have hrow : ∀ c, elimBelow A i k c * x c =
        A k c * x c + -(A k i) / A i i * (A i c * x c) := by
      intro c
      rw [elimBelow_row_gt A i hLZ hpiv k hk c]
      ring
    rw [Finset.sum_congr rfl (fun c _ => hrow c), Finset.sum_add_distrib,
      ← Finset.mul_sum]
  · rw [if_neg hk]
    unfold Matrix.mulVec Matrix.dotProduct
    exact Finset.sum_congr rfl (fun c _ => by simp only [elimBelow_row_le A i k hk])

theorem elimBelowVec_apply {n : ℕ} (A : Matrix (Fin n) (Fin n) ℚ) (B : Fin n → ℚ)
    (i k : Fin n) :
    elimBelowVec A B i k = if i < k then B k + -(A k i) / A i i * B i else B k := rfl

theorem elimL_injective {n : ℕ} (i : Fin n) (coef : Fin n → ℚ) :
    Function.Injective fun (y : Fin n → ℚ) k =>
      if i < k then y k + coef k * y i else y k := by
  intro y y' h
  have hi : y i = y' i := by
    have h2 := congrFun h i
    simpa [lt_irrefl] using h2
  funext k
  have h2 := congrFun h k
  by_cases hk : i < k
  · simp only [if_pos hk, hi] at h2
    linarith
  · simpa [if_neg hk] using h2

theorem elim_solution_iff {n : ℕ} (A : Matrix (Fin n) (Fin n) ℚ) (B : Fin n → ℚ)
    (i : Fin n) (hLZ : LowerZero (i : ℕ) A) (hpiv : A i i ≠ 0) (x : Fin n → ℚ) :
    (elimBelow A i).mulVec x = elimBelowVec A B i ↔ A.mulVec x = B := by
  constructor
  · intro h
    apply elimL_injective i (fun k => -(A k i) / A i i)
    funext k
    have h2 := congrFun h k
    rw [elimBelow_mulVec A i hLZ hpiv, elimBelowVec_apply] at h2
    by_cases hk : i < k
    · simpa [if_pos hk] using h2
    · simpa [if_neg hk] using h2
  · intro h
    funext k
    rw [elimBelow_mulVec A i hLZ hpiv, elimBelowVec_apply, h]

theorem elim_injective_iff {n : ℕ} (A : Matrix (Fin n) (Fin n) ℚ) (i : Fin n)
    (hLZ : LowerZero (i : ℕ) A) (hpiv : A i i ≠ 0) :
    Function.Injective (elimBelow A i).mulVec ↔ Function.Injective A.mulVec := by
  have hcomp : ∀ x, (elimBelow A i).mulVec x = (fun y : Fin n → ℚ => fun k =>
      if i < k then y k + -(A k i) / A i i * y i else y k) (A.mulVec x) := by
    intro x
    funext k
    rw [elimBelow_mulVec A i hLZ hpiv]
  constructor
  · intro h x y hxy
    apply h
    rw [hcomp x, hcomp y, hxy]
  · intro h x y hxy
    apply h
    apply elimL_injective i (fun k => -(A k i) / A i i)
    rw [← hcomp x, ← hcomp y, hxy]

/-! ### One elimination step preserves the invariant -/

theorem gaussStep_inv {n : ℕ} (s0 : GaussState n) (i : Fin n) (s : GaussState n)
    (hInv : GaussInv (i : ℕ) s0 s) (hp : (pivotSearch s.A i).1 ≠ 0) :
    GaussInv ((i : ℕ) + 1) s0 (gaussStep i s) := by
  obtain ⟨hLZ, hD, hS, hI⟩ := hInv
  have hmr : i ≤ (pivotSearch s.A i).2 := (pivotSearch_spec s.A i).1
  have hpe : s.A (pivotSearch s.A i).2 i ≠ 0 := pivot_ne_zero_entry s.A i hp
  set mr := (pivotSearch s.A i).2 with hmrdef
  have hswap := swapRows_eq_swap s.A i mr hmr hLZ
  have hswap2 : ∀ r c, swapRows s.A i mr r c = s.A (Equiv.swap i mr r) c :=
    fun r c => congrFun (congrFun hswap r) c
  have hLZ1 : LowerZero (i : ℕ) (swapRows s.A i mr) := by
    intro j k hj hjk
    rw [hswap2 k j]
    have hspec : ∀ r : Fin n, j < r → s.A r j = 0 := fun r hr => hLZ j r hj hr
    by_cases hki : k = i
    · rw [hki, Equiv.swap_apply_left]
      exact hspec mr (lt_of_lt_of_le (Fin.lt_def.mpr hj) hmr)
    · by_cases hkm : k = mr
      · rw [hkm, Equiv.swap_apply_right]
        exact hspec i (Fin.lt_def.mpr hj)
      · rw [Equiv.swap_apply_of_ne_of_ne hki hkm]
        exact hspec k hjk
  have hpiv1 : swapRows s.A i mr i i ≠ 0 := by
    rw [hswap2 i i, Equiv.swap_apply_left]
    exact hpe
  have hstep : gaussStep i s = GaussState.mk (elimBelow (swapRows s.A i mr) i)
      (elimBelowVec (swapRows s.A i mr) (swapVec s.B i mr) i) := rfl
  rw [hstep]
  refine ⟨?_, ?_, ?_, ?_⟩
  · -- LowerZero (i+1)
    intro j k hj hjk
    rcases Nat.lt_succ_iff_lt_or_eq.mp hj with hji | hji
    · have hij : ¬ i ≤ j := by
        intro hc
        exact absurd (Fin.le_def.mp hc) (by omega)
      show elimBelow (swapRows s.A i mr) i k j = 0
      unfold elimBelow
      rw [if_neg (fun hc => hij hc.2)]
      exact hLZ1 j k hji hjk
    · have hji' : j = i := Fin.ext hji
      subst hji'
      show elimBelow (swapRows s.A j mr) j k j = 0
      unfold elimBelow
      rw [if_pos ⟨hjk, le_rfl⟩, if_pos rfl]
  · -- DiagNZ (i+1)
    intro j hj
    rcases Nat.lt_succ_iff_lt_or_eq.mp hj with hji | hji
    · have hij : ¬ i < j := by
        intro hc
        exact absurd (Fin.lt_def.mp hc) (by omega)
      show elimBelow (swapRows s.A i mr) i j j ≠ 0
      rw [elimBelow_row_le _ _ _ hij]
      have hji2 : j ≠ i := by
        intro hc
        rw [hc] at hji
        omega
      have hjm : j ≠ mr := by
        intro hc
        have := Fin.le_def.mp hmr
        rw [hc] at hji
        omega
      rw [hswap2 j j, Equiv.swap_apply_of_ne_of_ne hji2 hjm]
      exact hD j hji
    · have hji' : j = i := Fin.ext hji
      subst hji'
      show elimBelow (swapRows s.A j mr) j j j ≠ 0
      rw [elimBelow_row_le _ _ _ (lt_irrefl j)]
      exact hpiv1
  · -- solution set
    intro x
    rw [show (GaussState.mk (elimBelow (swapRows s.A i mr) i)
      (elimBelowVec (swapRows s.A i mr) (swapVec s.B i mr) i)).A =
        elimBelow (swapRows s.A i mr) i from rfl,
      show (GaussState.mk (elimBelow (swapRows s.A i mr) i)
        (elimBelowVec (swapRows s.A i mr) (swapVec s.B i mr) i)).B =
        elimBelowVec (swapRows s.A i mr) (swapVec s.B i mr) i from rfl]
    rw [elim_solution_iff _ _ i hLZ1 hpiv1 x,
      swap_solution_iff s.A s.B i mr hmr hLZ x]
    exact hS x
  · -- injectivity
    rw [show (GaussState.mk (elimBelow (swapRows s.A i mr) i)
      (elimBelowVec (swapRows s.A i mr) (swapVec s.B i mr) i)).A =
        elimBelow (swapRows s.A i mr) i from rfl]
    rw [elim_injective_iff _ i hLZ1 hpiv1, swap_injective_iff s.A i mr hmr hLZ]
    exact hI

/-! ### A zero pivot witnesses a singular system -/

theorem pivot_zero_not_injective {n : ℕ} (A : Matrix (Fin n) (Fin n) ℚ) (i : Fin n)
    (hLZ : LowerZero (i : ℕ) A) (hp : (pivotSearch A i).1 = 0) :
    ¬ Function.Injective A.mulVec := by
  intro hinj
  have hmn : (i : ℕ) < n := i.isLt
  have hsupp : ∀ j : Fin n, j ≤ i → ∀ r : Fin n, i ≤ r → A r j = 0 := by
    intro j hj r hr
    rcases lt_or_eq_of_le hj with hj' | hj'
    · exact hLZ j r (Fin.lt_def.mp hj') (lt_of_lt_of_le hj' hr)
    · rw [hj']
      exact pivot_zero_col A i hp r hr
  let colv : Fin ((i : ℕ) + 1) → (Fin (i : ℕ) → ℚ) := fun j r =>
    A ⟨(r : ℕ), by omega⟩ ⟨(j : ℕ), by omega⟩
  have hdep : ¬ LinearIndependent ℚ colv := by
    intro hli
    have hcard := hli.fintype_card_le_finrank
    rw [Module.finrank_fintype_fun_eq_card, Fintype.card_fin, Fintype.card_fin] at hcard
    omega
  obtain ⟨g, hgsum, j0, hj0⟩ := Fintype.not_linearIndependent_iff.mp hdep
  let x : Fin n → ℚ := fun c => if h : (c : ℕ) < (i : ℕ) + 1 then g ⟨(c : ℕ), h⟩ else 0
  let G : ℕ → ℚ := fun k => if h : k < n then A ⟨k, h⟩ ⟨k, h⟩ else 0
  have hxval : ∀ (k : ℕ) (hk : k < n) (hk2 : k < (i : ℕ) + 1),
      x ⟨k, hk⟩ = g ⟨k, hk2⟩ := by
    intro k hk hk2
    show (if h : k < (i : ℕ) + 1 then g ⟨k, h⟩ else 0) = g ⟨k, hk2⟩
    rw [dif_pos hk2]
  have hxzero : ∀ (k : ℕ) (hk : k < n), ¬ k < (i : ℕ) + 1 → x ⟨k, hk⟩ = 0 := by
    intro k hk hk2
    show (if h : k < (i : ℕ) + 1 then g ⟨k, h⟩ else 0) = 0
    rw [dif_neg hk2]
  have hx0 : A.mulVec x = 0 := by
    funext r
    show Finset.univ.sum (fun c => A r c * x c) = 0
    by_cases hr : (r : ℕ) < (i : ℕ)
    · have hrel := congrFun hgsum (⟨(r : ℕ), hr⟩ : Fin (i : ℕ))
      simp only [Finset.sum_apply, Pi.smul_apply, smul_eq_mul, Pi.zero_apply] at hrel
      let T : ℕ → ℚ := fun k => if h : k < n then A r ⟨k, h⟩ * x ⟨k, h⟩ else 0
      have e1 : Finset.univ.sum (fun c => A r c * x c) =
          Finset.univ.sum (fun c : Fin n => T (c : ℕ)) := by
        apply Finset.sum_congr rfl
        intro c _
        show A r c * x c =
          if h : (c : ℕ) < n then A r ⟨(c : ℕ), h⟩ * x ⟨(c : ℕ), h⟩ else 0
        rw [dif_pos c.isLt, Fin.eta]
      have e2 : Finset.univ.sum (fun c : Fin n => T (c : ℕ)) =
          (Finset.range n).sum T := Fin.sum_univ_eq_sum_range T n
      have e3 : (Finset.range n).sum T = (Finset.range ((i : ℕ) + 1)).sum T := by
        symm
        apply Finset.sum_subset
        · exact Finset.range_subset.mpr (by omega)
        · intro k hk hknot
          simp only [Finset.mem_range] at hk hknot
          show (if h : k < n then A r ⟨k, h⟩ * x ⟨k, h⟩ else 0) = 0
          rw [dif_pos hk, hxzero k hk hknot, mul_zero]
      have e4 : (Finset.range ((i : ℕ) + 1)).sum T =
          Finset.univ.sum (fun j : Fin ((i : ℕ) + 1) => T (j : ℕ)) :=
        (Fin.sum_univ_eq_sum_range T ((i : ℕ) + 1)).symm
      have e5 : Finset.univ.sum (fun j : Fin ((i : ℕ) + 1) => T (j : ℕ)) =
          Finset.univ.sum (fun j : Fin ((i : ℕ) + 1) =>
            g j * colv j ⟨(r : ℕ), hr⟩) := by
        apply Finset.sum_congr rfl
        intro j _
        have hjn : (j : ℕ) < n := by omega
        have hji : (j : ℕ) < (i : ℕ) + 1 := j.isLt
        show (if h : (j : ℕ) < n then A r ⟨(j : ℕ), h⟩ * x ⟨(j : ℕ), h⟩ else 0) =
          g j * colv j ⟨(r : ℕ), hr⟩
        rw [dif_pos hjn, hxval (j : ℕ) hjn hji]
        show A r ⟨(j : ℕ), hjn⟩ * g ⟨(j : ℕ), hji⟩ =
          g j * A ⟨(r : ℕ), by omega⟩ ⟨(j : ℕ), by omega⟩
        rw [show (⟨(j : ℕ), hji⟩ : Fin ((i : ℕ) + 1)) = j from Fin.ext rfl,
          show (⟨(r : ℕ), by omega⟩ : Fin n) = r from Fin.ext rfl]
        rw [show (⟨(j : ℕ), by omega⟩ : Fin n) = ⟨(j : ℕ), hjn⟩ from Fin.ext rfl]
        ring
      rw [e1, e2, e3, e4, e5]
      exact hrel
    · apply Finset.sum_eq_zero
      intro c _
      by_cases hc : (c : ℕ) < (i : ℕ) + 1
      · have hcz : A r c = 0 :=
          hsupp c (Fin.le_def.mpr (by omega)) r (Fin.le_def.mpr (by omega))
        rw [hcz, zero_mul]
      · have hxz : x c = 0 := by
          rw [show c = ⟨(c : ℕ), c.isLt⟩ from Fin.ext rfl]
          exact hxzero (c : ℕ) c.isLt hc
        rw [hxz, mul_zero]
  have hxne : x ≠ 0 := by
    intro hxeq
    apply hj0
    have hz := congrFun hxeq ⟨(j0 : ℕ), by omega⟩
    rw [hxval (j0 : ℕ) (by omega) j0.isLt] at hz
    rw [show (⟨(j0 : ℕ), j0.isLt⟩ : Fin ((i : ℕ) + 1)) = j0 from Fin.ext rfl] at hz
    exact hz
  apply hxne
  apply hinj
  rw [hx0, Matrix.mulVec_zero]

/-! ### The forward elimination -/

theorem gaussInv_zero {n : ℕ} (s0 : GaussState n) : GaussInv 0 s0 s0 :=
  ⟨fun j _ hj => absurd hj (by omega), fun j hj => absurd hj (by omega),
    fun _ => Iff.rfl, Iff.rfl⟩

theorem gaussInv_final {n : ℕ} (s0 s : GaussState n) (m : ℕ) (hm : n ≤ m)
    (h : GaussInv m s0 s) : GaussInv n s0 s := by
  obtain ⟨hLZ, hD, hS, hI⟩ := h
  exact ⟨fun j k hj hjk => hLZ j k (by omega) hjk,
    fun j hj => hD j (by omega), hS, hI⟩

theorem forward_inv {n : ℕ} (s0 : GaussState n) :
    ∀ (fuel i : ℕ) (s : GaussState n), n - i ≤ fuel →
      GaussInv i s0 s → (∀ p ∈ gaussPivotsFrom s i, p ≠ 0) →
      GaussInv n s0 (forwardElimFrom s i) := by
  intro fuel
  induction fuel with
  | zero =>
    intro i s hfuel hInv _
    rw [forwardElimFrom, dif_neg (by omega : ¬ i < n)]
    exact gaussInv_final s0 s i (by omega) hInv
  | succ fuel ih =>
    intro i s hfuel hInv hp
    by_cases hin : i < n
    · rw [forwardElimFrom, dif_pos hin]
      have hppiv : (pivotSearch s.A ⟨i, hin⟩).1 ≠ 0 := by
        apply hp
        rw [gaussPivotsFrom, dif_pos hin]
        exact List.mem_cons_self _ _
      have hInv' := gaussStep_inv s0 ⟨i, hin⟩ s hInv hppiv
      apply ih (i + 1) _ (by omega) hInv'
      intro p hmem
      apply hp
      rw [gaussPivotsFrom, dif_pos hin]
      exact List.mem_cons_of_mem _ hmem
    · rw [forwardElimFrom, dif_neg hin]
      exact gaussInv_final s0 s i (by omega) hInv

theorem forward_pivots_ne_zero {n : ℕ} (s0 : GaussState n)
    (hinj : Function.Injective s0.A.mulVec) :
    ∀ (fuel i : ℕ) (s : GaussState n), n - i ≤ fuel → GaussInv i s0 s →
      ∀ p ∈ gaussPivotsFrom s i, p ≠ 0 := by
  intro fuel
  induction fuel with
  | zero =>
    intro i s hfuel hInv p hmem
    rw [gaussPivotsFrom, dif_neg (by omega : ¬ i < n)] at hmem
    exact absurd hmem (List.not_mem_nil p)
  | succ fuel ih =>
    intro i s hfuel hInv p hmem
    by_cases hin : i < n
    · rw [gaussPivotsFrom, dif_pos hin] at hmem
      have hhead : (pivotSearch s.A ⟨i, hin⟩).1 ≠ 0 := by
        intro h0
        have hni := pivot_zero_not_injective s.A ⟨i, hin⟩ hInv.1 h0
        exact hni (hInv.2.2.2.mpr hinj)
      rcases List.mem_cons.mp hmem with hpe | htail
      · rw [hpe]
        exact hhead
      · exact ih (i + 1) _ (by omega) (gaussStep_inv s0 ⟨i, hin⟩ s hInv hhead) p htail
    · rw [gaussPivotsFrom, dif_neg hin] at hmem
      exact absurd hmem (List.not_mem_nil p)

/-! ### Back substitution -/

theorem backSubAux_stable {n : ℕ} (s : GaussState n) :
    ∀ (m : ℕ) (x : Fin n → ℚ) (j : Fin n), m ≤ (j : ℕ) →
      backSubAux s m x j = x j := by
  intro m
  induction m with
  | zero => intro x j _; rfl
  | succ m ih =>
    intro x j hj
    by_cases hmn : m < n
    · rw [backSubAux, dif_pos hmn]
      rw [ih _ j (by omega)]
      apply Function.update_noteq
      intro hc
      rw [hc] at hj
      exact absurd hj (by simp)
    · rw [backSubAux, dif_neg hmn]
      exact ih x j (by omega)

theorem backSubAux_fix {n : ℕ} (s : GaussState n) :
    ∀ (m : ℕ) (x : Fin n → ℚ), m ≤ n → ∀ j : Fin n, (j : ℕ) < m →
      (backSubAux s m x) j =
        (s.B j - ∑ k ∈ Finset.univ.filter (fun k : Fin n => (j : ℕ) < (k : ℕ)),
          s.A j k * (backSubAux s m x) k) / s.A j j := by
  intro m
  induction m with
  | zero => intro x _ j hj; omega
  | succ m ih =>
    intro x hmn j hj
    have hm : m < n := by omega
    rw [backSubAux, dif_pos hm]
    rcases Nat.lt_succ_iff_lt_or_eq.mp hj with hjm | hjm
    · exact ih _ (by omega) j hjm
    · have hjeq : j = ⟨m, hm⟩ := Fin.ext hjm
      subst hjeq
      rw [backSubAux_stable s m _ ⟨m, hm⟩ le_rfl]
      rw [Function.update_same]
      congr 1
      congr 1
      apply Finset.sum_congr rfl
      intro k hk
      simp only [Finset.mem_filter] at hk
      have hk2 : m < (k : ℕ) := hk.2
      rw [backSubAux_stable s m _ k (by omega)]
      rw [Function.update_noteq]
      intro hc
      rw [hc] at hk2
      exact absurd hk2 (by simp)

theorem triangular_solves {n : ℕ} (s : GaussState n) (hLZ : LowerZero n s.A)
    (hD : DiagNZ n s.A) (x : Fin n → ℚ)
    (hx : ∀ j : Fin n, x j =
      (s.B j - ∑ k ∈ Finset.univ.filter (fun k : Fin n => (j : ℕ) < (k : ℕ)),
        s.A j k * x k) / s.A j j) :
    s.A.mulVec x = s.B := by
  funext r
  show Finset.univ.sum (fun k => s.A r k * x k) = s.B r
  have hsplit := Finset.sum_filter_add_sum_filter_not Finset.univ
    (fun k : Fin n => (r : ℕ) < (k : ℕ)) (fun k => s.A r k * x k)
  rw [← hsplit]
  have hnot : (Finset.univ.filter (fun k : Fin n => ¬ (r : ℕ) < (k : ℕ))).sum
      (fun k => s.A r k * x k) = s.A r r * x r := by
    apply Finset.sum_eq_single_of_mem r
    · simp
    · intro k hk hkr
      simp only [Finset.mem_filter] at hk
      have hord : (k : ℕ) < (r : ℕ) ∨ (k : ℕ) = (r : ℕ) := by omega
      rcases hord with h | h
      · rw [hLZ k r k.isLt (Fin.lt_def.mpr h), zero_mul]
      · exact absurd (Fin.ext h) hkr
  rw [hnot]
  have hr : s.A r r * x r =
      s.B r - ∑ k ∈ Finset.univ.filter (fun k : Fin n => (r : ℕ) < (k : ℕ)),
        s.A r k * x k := by
    rw [hx r, mul_comm, div_mul_cancel₀ _ (hD r r.isLt)]
  rw [hr]
  ring

/-- If every pivot chosen during the elimination is nonzero, the vector
returned by `solveLinearSystem` solves the original system. -/
theorem solveLinearSystem_solves {n : ℕ} (A : Matrix (Fin n) (Fin n) ℚ)
    (B : Fin n → ℚ) (hp : ∀ p ∈ gaussPivots A B, p ≠ 0) :
    A.mulVec (solveLinearSystem A B) = B := by
  have hInv := forward_inv (GaussState.mk A B) n 0 (GaussState.mk A B)
    (by omega) (gaussInv_zero _) hp
  obtain ⟨hLZ, hD, hS, hI⟩ := hInv
  have hfix := backSubAux_fix (forwardElimFrom (GaussState.mk A B) 0) n
    (fun _ => 0) le_rfl
  have hsol : (forwardElimFrom (GaussState.mk A B) 0).A.mulVec
      (backSubAux (forwardElimFrom (GaussState.mk A B) 0) n (fun _ => 0)) =
      (forwardElimFrom (GaussState.mk A B) 0).B :=
    triangular_solves _ hLZ hD _ (fun j => hfix j j.isLt)
  exact (hS _).mp hsol

/-- If the system matrix is injective (nonsingular), `solveLinearSystem`
returns its unique solution. -/
theorem solveLinearSystem_unique {n : ℕ} (A : Matrix (Fin n) (Fin n) ℚ)
    (B : Fin n → ℚ) (hinj : Function.Injective A.mulVec) (h : Fin n → ℚ)
    (hsol : A.mulVec h = B) : solveLinearSystem A B = h := by
  have hp : ∀ p ∈ gaussPivots A B, p ≠ 0 :=
    forward_pivots_ne_zero (GaussState.mk A B) hinj n 0 _ (by omega)
      (gaussInv_zero _)
  exact hinj (by rw [solveLinearSystem_solves A B hp, hsol])

/-- If the system has no solution at all, some chosen pivot must have been
exactly zero (and the code divides by it regardless). -/
theorem gaussPivots_zero_of_unsolvable {n : ℕ} (A : Matrix (Fin n) (Fin n) ℚ)
    (B : Fin n → ℚ) (hnosol : ¬ ∃ x, A.mulVec x = B) :
    ∃ p ∈ gaussPivots A B, p = 0 := by
  by_contra hc
  push_neg at hc
  exact hnosol ⟨solveLinearSystem A B, solveLinearSystem_solves A B hc⟩

theorem collinear_unsolvable : ¬ ∃ x, collinearSrcA.mulVec x = collinearSrcB := by
  rintro ⟨x, hx⟩
  have e0 := congrFun hx 0
  have e2 := congrFun hx 2
  have e4 := congrFun hx 4
  simp [collinearSrcA, collinearSrcB, homographyA, homographyB, homographyRowX,
    homographyRowY, Matrix.mulVec, Matrix.dotProduct, Fin.sum_univ_eight] at e0 e2 e4
  linarith

/-- C1 (code bug): solving the homography system for 4 collinear source
points makes the elimination choose a pivot whose magnitude is exactly
zero, yet `solveLinearSystem` has no failure case: `computeHomography`
still returns a full 9-coefficient matrix (in IEEE arithmetic the
division by this zero pivot produces NaN/Infinity entries), and no
`DegenerateTransform` result exists anywhere in the code. -/
theorem collinear_zero_pivot_no_guard :
    (∃ p ∈ gaussPivots collinearSrcA collinearSrcB, p = 0) ∧
      (computeHomography ⟨0, 0⟩ ⟨1, 1⟩ ⟨2, 2⟩ ⟨3, 3⟩
        ⟨0, 0⟩ ⟨1, 0⟩ ⟨1, 1⟩ ⟨0, 1⟩).length = 9 := by
  constructor
  · exact gaussPivots_zero_of_unsolvable collinearSrcA collinearSrcB
      collinear_unsolvable
  · simp [computeHomography]

/-! ### The identity homography on a rectangle -/

theorem rect_kernel_trivial (x0 x1 y0 y1 : ℚ) (hx : x0 ≠ x1) (hy : y0 ≠ y1)
    (h : Fin 8 → ℚ)
    (h0 : (homographyA ⟨x0, y0⟩ ⟨x1, y0⟩ ⟨x1, y1⟩ ⟨x0, y1⟩ ⟨x0, y0⟩ ⟨x1, y0⟩
      ⟨x1, y1⟩ ⟨x0, y1⟩).mulVec h = 0) :
    h = 0 := by
  have e0 := congrFun h0 0
  have e1 := congrFun h0 1
  have e2 := congrFun h0 2
  have e3 := congrFun h0 3
  have e4 := congrFun h0 4
  have e5 := congrFun h0 5
  have e6 := congrFun h0 6
  have e7 := congrFun h0 7
  simp [homographyA, homographyRowX, homographyRowY, Matrix.mulVec,
    Matrix.dotProduct, Fin.sum_univ_eight] at e0 e1 e2 e3 e4 e5 e6 e7
  have hx' : x1 - x0 ≠ 0 := sub_ne_zero.mpr (Ne.symm hx)
  have hy'' : y1 - y0 ≠ 0 := sub_ne_zero.mpr (Ne.symm hy)
  have f1 : h 0 - (x0 + x1) * h 6 - y0 * h 7 = 0 := by
    have d : (x1 - x0) * (h 0 - (x0 + x1) * h 6 - y0 * h 7) = 0 := by
      linear_combination e2 - e0
    exact (mul_eq_zero.mp d).resolve_left hx'
  have f2 : h 0 - (x0 + x1) * h 6 - y1 * h 7 = 0 := by
    have d : (x1 - x0) * (h 0 - (x0 + x1) * h 6 - y1 * h 7) = 0 := by
      linear_combination e4 - e6
    exact (mul_eq_zero.mp d).resolve_left hx'
  have g7 : h 7 = 0 := by
    have d : (y1 - y0) * h 7 = 0 := by linear_combination f1 - f2
    exact (mul_eq_zero.mp d).resolve_left hy''
  have g1 : h 1 = 0 := by
    have d : (y1 - y0) * (h 1 - x0 * h 7) = 0 := by linear_combination e6 - e0
    have d2 := (mul_eq_zero.mp d).resolve_left hy''
    linear_combination d2 + x0 * g7
  have f5 : h 3 - y0 * h 6 = 0 := by
    have d : (x1 - x0) * (h 3 - y0 * h 6) = 0 := by linear_combination e3 - e1
    exact (mul_eq_zero.mp d).resolve_left hx'
  have f6 : h 3 - y1 * h 6 = 0 := by
    have d : (x1 - x0) * (h 3 - y1 * h 6) = 0 := by linear_combination e5 - e7
    exact (mul_eq_zero.mp d).resolve_left hx'
  have g6 : h 6 = 0 := by
    have d : (y1 - y0) * h 6 = 0 := by linear_combination f5 - f6
    exact (mul_eq_zero.mp d).resolve_left hy''
  have g3 : h 3 = 0 := by linear_combination f5 + y0 * g6
  have g4 : h 4 = 0 := by
    have d : (y1 - y0) * (h 4 - x0 * h 6 - (y0 + y1) * h 7) = 0 := by
      linear_combination e7 - e1
    have d2 := (mul_eq_zero.mp d).resolve_left hy''
    linear_combination d2 + x0 * g6 + (y0 + y1) * g7
  have g0 : h 0 = 0 := by linear_combination f1 + (x0 + x1) * g6 + y0 * g7
  have g2 : h 2 = 0 := by
    linear_combination e0 - x0 * g0 - y0 * g1 + (x0 * x0) * g6 + (y0 * x0) * g7
  have g5 : h 5 = 0 := by
    linear_combination e1 - x0 * g3 - y0 * g4 + (x0 * y0) * g6 + (y0 * y0) * g7
  funext j
  fin_cases j
  · exact g0
  · exact g1
  · exact g2
  · exact g3
  · exact g4
  · exact g5
  · exact g6
  · exact g7

theorem rect_injective (x0 x1 y0 y1 : ℚ) (hx : x0 ≠ x1) (hy : y0 ≠ y1) :
    Function.Injective (homographyA ⟨x0, y0⟩ ⟨x1, y0⟩ ⟨x1, y1⟩ ⟨x0, y1⟩
      ⟨x0, y0⟩ ⟨x1, y0⟩ ⟨x1, y1⟩ ⟨x0, y1⟩).mulVec := by
  intro u v huv
  have hker : (homographyA ⟨x0, y0⟩ ⟨x1, y0⟩ ⟨x1, y1⟩ ⟨x0, y1⟩ ⟨x0, y0⟩
      ⟨x1, y0⟩ ⟨x1, y1⟩ ⟨x0, y1⟩).mulVec (u - v) = 0 := by
    rw [Matrix.mulVec_sub, huv, sub_self]
  have := rect_kernel_trivial x0 x1 y0 y1 hx hy (u - v) hker
  exact sub_eq_zero.mp this

theorem rect_identity_solves (x0 x1 y0 y1 : ℚ) :
    (homographyA ⟨x0, y0⟩ ⟨x1, y0⟩ ⟨x1, y1⟩ ⟨x0, y1⟩ ⟨x0, y0⟩ ⟨x1, y0⟩
      ⟨x1, y1⟩ ⟨x0, y1⟩).mulVec identityH =
      homographyB ⟨x0, y0⟩ ⟨x1, y0⟩ ⟨x1, y1⟩ ⟨x0, y1⟩ := by
  funext r
  fin_cases r <;>
    simp [homographyA, homographyB, homographyRowX, homographyRowY, identityH,
      Matrix.mulVec, Matrix.dotProduct, Fin.sum_univ_eight]

/-- C8: solving the homography of a non-degenerate axis-aligned rectangle
onto itself yields exactly the identity coefficients
`[1, 0, 0, 0, 1, 0, 0, 0, 1]` (exact arithmetic; hence within any
tolerance such as 1e-6). -/
theorem rectangle_identity_homography (x0 x1 y0 y1 : ℚ)
    (hx : x0 ≠ x1) (hy : y0 ≠ y1) :
    computeHomography ⟨x0, y0⟩ ⟨x1, y0⟩ ⟨x1, y1⟩ ⟨x0, y1⟩
      ⟨x0, y0⟩ ⟨x1, y0⟩ ⟨x1, y1⟩ ⟨x0, y1⟩ = [1, 0, 0, 0, 1, 0, 0, 0, 1] := by
  unfold computeHomography
  rw [solveLinearSystem_unique _ _ (rect_injective x0 x1 y0 y1 hx hy) identityH
    (rect_identity_solves x0 x1 y0 y1)]
  rfl

/-- Witness for C8 at the rectangle `(0,0)-(2,3)`. -/
theorem rectangle_identity_homography_witness :
    ((0 : ℚ) ≠ 2 ∧ (0 : ℚ) ≠ 3) ∧
      computeHomography ⟨0, 0⟩ ⟨2, 0⟩ ⟨2, 3⟩ ⟨0, 3⟩ ⟨0, 0⟩ ⟨2, 0⟩ ⟨2, 3⟩ ⟨0, 3⟩ =
        [1, 0, 0, 0, 1, 0, 0, 0, 1] :=
  ⟨⟨by norm_num, by norm_num⟩,
    rectangle_identity_homography 0 2 0 3 (by norm_num) (by norm_num)⟩

/-! ### The warp contract -/

theorem warpPixel_alpha (srcW srcH : ℕ) (srcData : Surface) (hm : Fin 8 → ℚ)
    (x y : ℕ) : (warpPixel srcW srcH srcData hm x y).a = 255 := by
  unfold warpPixel
  cases hc : warpSrcCoord hm x y with
  | none => rfl
  | some p =>
    cases p with
    | mk sx sy =>
      show (if inSrcBounds srcW srcH sx sy then bilinearPixel srcData sx sy
        else whitePixel).a = 255
      by_cases hb : inSrcBounds srcW srcH sx sy
      · rw [if_pos hb]
        rfl
      · rw [if_neg hb]
        rfl

/-- C3: `performWarp` never fails: for every destination pixel, if the
inverse-mapped source coordinates exist (nonzero homogeneous denominator)
and lie in `[0, srcW-1) × [0, srcH-1)` the output is the bilinear
interpolation of the 4 surrounding source pixels with alpha 255, and in
every other case (out of bounds, or non-finite coordinates from a
degenerate homography, modelled as `none`) the output is opaque white;
in particular every output pixel has alpha 255. -/
theorem warp_always_succeeds (srcW srcH : ℕ) (srcData : Surface)
    (c0 c1 c2 c3 : Point) (tw x y : ℕ) :
    (performWarp srcW srcH srcData c0 c1 c2 c3 tw x y).a = 255 ∧
    performWarp srcW srcH srcData c0 c1 c2 c3 tw x y =
      (match warpSrcCoord (warpMatrix c0 c1 c2 c3 tw
          ((jsRound ((tw : ℚ) / A4_RATIO)).toNat)) x y with
        | none => whitePixel
        | some (sx, sy) =>
          if inSrcBounds srcW srcH sx sy then bilinearPixel srcData sx sy
          else whitePixel) :=
  ⟨warpPixel_alpha srcW srcH srcData _ x y, rfl⟩

/-! ### Scan counting -/

theorem scanStep_found (x y : ℕ) (st : ScanState) :
    (scanStep x y st).found = st.found + 1 := by
  unfold scanStep
  dsimp only
  split <;> split <;> split <;> split <;> rfl

theorem scanRowFold_found (data : Surface) (sw sh y : ℕ) (l : List ℕ) :
    ∀ st : ScanState, (scanRowFold data sw sh y st l).found =
      st.found + l.countP (fun x => qualB data sw sh x y) := by
  induction l with
  | nil => intro st; rfl
  | cons a l ih =>
    intro st
    unfold scanRowFold at ih ⊢
    rw [List.foldl_cons, List.countP_cons]
    by_cases h : qualB data sw sh a y = true
    · rw [if_pos h, ih, scanStep_found, h]
      simp
      omega
    · rw [if_neg h, ih]
      rw [Bool.not_eq_true] at h
      rw [h]
      simp

theorem detectScan_found (data : Surface) (sw sh : ℕ) :
    (detectScan data sw sh).found =
      ((List.range' (detectMargin sw sh) (sh - 2 * detectMargin sw sh)).map
        (fun y => (List.range' (detectMargin sw sh) (sw - 2 * detectMargin sw sh)).countP
          (fun x => qualB data sw sh x y))).sum := by
  unfold detectScan
  have hgen : ∀ (ys : List ℕ) (st : ScanState),
      (ys.foldl (fun st y => scanRowFold data sw sh y st
        (List.range' (detectMargin sw sh) (sw - 2 * detectMargin sw sh))) st).found =
      st.found + (ys.map
        (fun y => (List.range' (detectMargin sw sh) (sw - 2 * detectMargin sw sh)).countP
          (fun x => qualB data sw sh x y))).sum := by
    intro ys
    induction ys with
    | nil => intro st; simp
    | cons a ys ih =>
      intro st
      rw [List.foldl_cons, ih, scanRowFold_found]
      simp
      omega
  rw [hgen]
  simp [initialScanState]

/-- C5 (amended): `detectDocumentEdges` returns `NotFound` (none) exactly
when the count of qualifying pixels in the margin-excluded scan is
strictly below 0.1% of the FULL downsampled-image pixel count `sw*sh`
(not of the margin-excluded scanned area). -/
theorem detect_none_iff (sw sh : ℕ) (data : Surface) (scale : ℚ) :
    (detectDocumentEdges sw sh data scale = none ↔
      ((((List.range' (detectMargin sw sh) (sh - 2 * detectMargin sw sh)).map
        (fun y => (List.range' (detectMargin sw sh) (sw - 2 * detectMargin sw sh)).countP
          (fun x => qualB data sw sh x y))).sum : ℚ) < (sw : ℚ) * sh * 0.001)) := by
  rw [← detectScan_found]
  unfold detectDocumentEdges
  by_cases h : ((detectScan data sw sh).found : ℚ) < (sw : ℚ) * sh * 0.001
  · simp only [if_pos h]
    exact ⟨fun _ => h, fun _ => trivial⟩
  · simp only [if_neg h]
    constructor
    · intro hc
      exact absurd hc (by simp)
    · intro hc
      exact absurd hc h

/-- C7 (amended): a pixel in the margin-excluded scan is counted as a
qualifying edge pixel exactly when the STORED magnitude byte
`⌊√(Gx²+Gy²)⌋ mod 256` (a `Uint8Array` entry, not the real magnitude)
exceeds the adaptive threshold `max(30, avgGradient * 2.5)`. -/
theorem qualifying_uses_stored_byte (sw sh : ℕ) (data : Surface) :
    ((detectScan data sw sh).found =
      ((List.range' (detectMargin sw sh) (sh - 2 * detectMargin sw sh)).map
        (fun y => (List.range' (detectMargin sw sh) (sw - 2 * detectMargin sw sh)).countP
          (fun x => qualB data sw sh x y))).sum) ∧
    ∀ x y : ℕ, qualB data sw sh x y = true ↔
      (edgesByte data sw sh x y : ℝ) > detectThreshold data sw sh := by
  refine ⟨detectScan_found data sw sh, ?_⟩
  intro x y
  unfold qualB
  classical
  exact ⟨fun hq => of_decide_eq_true hq, fun hq => decide_eq_true hq⟩

/-! ### Concrete evaluation of the detector on the 101×20 counterexample -/

theorem sqrt_nat_le (n k : ℕ) (h : n ≤ k ^ 2) : Real.sqrt n ≤ k := by
  rw [show ((k : ℝ)) = Real.sqrt ((k : ℝ) ^ 2) from (Real.sqrt_sq (by positivity)).symm]
  apply Real.sqrt_le_sqrt
  exact_mod_cast h

theorem c5_tempGray_of_ne (a b : ℕ) (h : ¬(a = 1 ∧ (b = 1 ∨ b = 2))) :
    tempGray c5img a b = 0 := by
  unfold tempGray c5img
  rw [if_neg h]
  decide

theorem c5_blur_zero (x y : ℕ) (h : 3 ≤ x ∨ 4 ≤ y) :
    grayBlur c5img 101 20 x y = 0 := by
  have e : ∀ a b : ℕ, ¬(a = 1 ∧ (b = 1 ∨ b = 2)) → tempGray c5img a b = 0 :=
    c5_tempGray_of_ne
  unfold grayBlur
  by_cases hg : 1 ≤ x ∧ x < 101 - 1 ∧ 1 ≤ y ∧ y < 20 - 1
  · rw [if_pos hg]
    rcases h with h3 | h4
    · rw [e (x-1) (y-1) (by omega), e x (y-1) (by omega), e (x+1) (y-1) (by omega),
        e (x-1) y (by omega), e x y (by omega), e (x+1) y (by omega),
        e (x-1) (y+1) (by omega), e x (y+1) (by omega), e (x+1) (y+1) (by omega)]
      decide
    · rw [e (x-1) (y-1) (by omega), e x (y-1) (by omega), e (x+1) (y-1) (by omega),
        e (x-1) y (by omega), e x y (by omega), e (x+1) y (by omega),
        e (x-1) (y+1) (by omega), e x (y+1) (by omega), e (x+1) (y+1) (by omega)]
      decide
  · rw [if_neg hg]

theorem c5_magSq_zero (x y : ℕ) (h : 4 ≤ x ∨ 5 ≤ y) :
    sobelMagSq (grayBlur c5img 101 20) x y = 0 := by
  have e : ∀ a b : ℕ, (3 ≤ a ∨ 4 ≤ b) → grayBlur c5img 101 20 a b = 0 := c5_blur_zero
  unfold sobelMagSq sobelGx sobelGy
  rcases h with h4 | h5
  · rw [e (x-1) (y-1) (by omega), e (x+1) (y-1) (by omega), e (x-1) y (by omega),
      e (x+1) y (by omega), e (x-1) (y+1) (by omega), e (x+1) (y+1) (by omega),
      e x (y-1) (by omega), e x (y+1) (by omega)]
    decide
  · rw [e (x-1) (y-1) (by omega), e (x+1) (y-1) (by omega), e (x-1) y (by omega),
      e (x+1) y (by omega), e (x-1) (y+1) (by omega), e (x+1) (y+1) (by omega),
      e x (y-1) (by omega), e x (y+1) (by omega)]
    decide

theorem c5_edges_zero (x y : ℕ) (h : 4 ≤ x ∨ 5 ≤ y) :
    edgesByte c5img 101 20 x y = 0 := by
  unfold edgesByte
  by_cases hg : 1 ≤ x ∧ x < 101 - 1 ∧ 1 ≤ y ∧ y < 20 - 1
  · rw [if_pos hg, c5_magSq_zero x y h]
    decide
  · rw [if_neg hg]

theorem c5_totalMag_le : sobelTotalMag c5img 101 20 ≤ 293 := by
  unfold sobelTotalMag
  simp only [show (20 - 1 : ℕ) = 19 from rfl, show (101 - 1 : ℕ) = 100 from rfl]
  show (∑ y ∈ Finset.Ico 1 19, ∑ x ∈ Finset.Ico 1 100, c5F x y) ≤ 293
  have hinner : ∀ y : ℕ, (∑ x ∈ Finset.Ico 1 100, c5F x y) = ∑ x ∈ Finset.Ico 1 4, c5F x y := by
    intro y
    refine (Finset.sum_subset (Finset.Ico_subset_Ico le_rfl (by norm_num)) ?_).symm
    intro x hx hxs
    have h4 : 4 ≤ x := by
      simp only [Finset.mem_Ico] at hx hxs
      omega
    unfold c5F
    rw [c5_magSq_zero x y (Or.inl h4)]
    simp
  have houter : (∑ y ∈ Finset.Ico 1 19, ∑ x ∈ Finset.Ico 1 100, c5F x y)
      = ∑ y ∈ Finset.Ico 1 5, ∑ x ∈ Finset.Ico 1 100, c5F x y := by
    refine (Finset.sum_subset (Finset.Ico_subset_Ico le_rfl (by norm_num)) ?_).symm
    intro y hy hys
    apply Finset.sum_eq_zero
    intro x hx
    have h5 : 5 ≤ y := by
      simp only [Finset.mem_Ico] at hy hys
      omega
    unfold c5F
    rw [c5_magSq_zero x y (Or.inr h5)]
    simp
  rw [houter]
  rw [Finset.sum_congr rfl (fun y _ => hinner y)]
  have ey : ∀ G : ℕ → ℝ, (∑ y ∈ Finset.Ico 1 5, G y) = G 1 + G 2 + G 3 + G 4 := by
    intro G
    rw [Finset.sum_Ico_eq_sum_range]
    norm_num [Finset.sum_range_succ]
  have ex : ∀ G : ℕ → ℝ, (∑ x ∈ Finset.Ico 1 4, G x) = G 1 + G 2 + G 3 := by
    intro G
    rw [Finset.sum_Ico_eq_sum_range]
    norm_num [Finset.sum_range_succ]
  rw [ey, ex, ex, ex, ex]
  have b11 : c5F 1 1 ≤ 34 := by
    unfold c5F
    rw [(by decide : sobelMagSq (grayBlur c5img 101 20) 1 1 = 1152)]
    exact sqrt_nat_le 1152 34 (by norm_num)
  have b21 : c5F 2 1 ≤ 34 := by
    unfold c5F
    rw [(by decide : sobelMagSq (grayBlur c5img 101 20) 2 1 = 1152)]
    exact sqrt_nat_le 1152 34 (by norm_num)
  have b31 : c5F 3 1 ≤ 26 := by
    unfold c5F
    rw [(by decide : sobelMagSq (grayBlur c5img 101 20) 3 1 = 640)]
    exact sqrt_nat_le 640 26 (by norm_num)
  have b12 : c5F 1 2 ≤ 31 := by
    unfold c5F
    rw [(by decide : sobelMagSq (grayBlur c5img 101 20) 1 2 = 928)]
    exact sqrt_nat_le 928 31 (by norm_num)
  have b22 : c5F 2 2 ≤ 31 := by
    unfold c5F
    rw [(by decide : sobelMagSq (grayBlur c5img 101 20) 2 2 = 928)]
    exact sqrt_nat_le 928 31 (by norm_num)
  have b32 : c5F 3 2 ≤ 29 := by
    unfold c5F
    rw [(by decide : sobelMagSq (grayBlur c5img 101 20) 3 2 = 800)]
    exact sqrt_nat_le 800 29 (by norm_num)
  have b13 : c5F 1 3 ≤ 29 := by
    unfold c5F
    rw [(by decide : sobelMagSq (grayBlur c5img 101 20) 1 3 = 832)]
    exact sqrt_nat_le 832 29 (by norm_num)
  have b23 : c5F 2 3 ≤ 29 := by
    unfold c5F
    rw [(by decide : sobelMagSq (grayBlur c5img 101 20) 2 3 = 832)]
    exact sqrt_nat_le 832 29 (by norm_num)
  have b33 : c5F 3 3 ≤ 18 := by
    unfold c5F
    rw [(by decide : sobelMagSq (grayBlur c5img 101 20) 3 3 = 320)]
    exact sqrt_nat_le 320 18 (by norm_num)
  have b14 : c5F 1 4 ≤ 13 := by
    unfold c5F
    rw [(by decide : sobelMagSq (grayBlur c5img 101 20) 1 4 = 160)]
    exact sqrt_nat_le 160 13 (by norm_num)
  have b24 : c5F 2 4 ≤ 13 := by
    unfold c5F
    rw [(by decide : sobelMagSq (grayBlur c5img 101 20) 2 4 = 160)]
    exact sqrt_nat_le 160 13 (by norm_num)
  have b34 : c5F 3 4 ≤ 6 := by
    unfold c5F
    rw [(by decide : sobelMagSq (grayBlur c5img 101 20) 3 4 = 32)]
    exact sqrt_nat_le 32 6 (by norm_num)
  linarith

theorem c5_totalMag_nonneg : 0 ≤ sobelTotalMag c5img 101 20 := by
  unfold sobelTotalMag
  positivity

theorem c5_threshold : detectThreshold c5img 101 20 = 30 := by
  unfold detectThreshold
  apply max_eq_left
  unfold avgGradient
  rw [if_pos (show 0 < sobelCount 101 20 by decide)]
  have hc : ((sobelCount 101 20 : ℕ) : ℝ) = 1782 := by norm_num [sobelCount]
  rw [hc, div_mul_eq_mul_div, div_le_iff₀ (by norm_num : (0:ℝ) < 1782)]
  have h := c5_totalMag_le
  linarith

theorem c5_qualB_iff (x y : ℕ) :
    qualB c5img 101 20 x y = decide (30 < edgesByte c5img 101 20 x y) := by
  unfold qualB
  classical
  have hiff : qualifies c5img 101 20 x y ↔ 30 < edgesByte c5img 101 20 x y := by
    unfold qualifies
    rw [c5_threshold]
    exact ⟨fun hh => by exact_mod_cast hh, fun hh => by exact_mod_cast hh⟩
  by_cases h : 30 < edgesByte c5img 101 20 x y
  · rw [decide_eq_true h]
    exact decide_eq_true (hiff.mpr h)
  · rw [decide_eq_false h]
    exact decide_eq_false (fun hq => h (hiff.mp hq))

set_option maxRecDepth 40000 in
theorem c5_row_count (y : ℕ) (hy : 1 ≤ y) :
    (List.range' 1 99).countP (fun x => qualB c5img 101 20 x y) =
      if y = 1 then 2 else 0 := by
  have hcong : (List.range' 1 99).countP (fun x => qualB c5img 101 20 x y)
      = (List.range' 1 99).countP (fun x => decide (30 < edgesByte c5img 101 20 x y)) :=
    List.countP_congr (fun a _ => by rw [c5_qualB_iff a y])
  rw [hcong]
  by_cases h5 : 5 ≤ y
  · rw [if_neg (by omega)]
    apply List.countP_eq_zero.mpr
    intro a ha
    simp only [c5_edges_zero a y (Or.inr h5)]
    simp
  · rw [show List.range' 1 99 = List.range' 1 3 ++ List.range' 4 96 from by decide,
      List.countP_append]
    have h2 : (List.range' 4 96).countP (fun x => decide (30 < edgesByte c5img 101 20 x y)) = 0 := by
      apply List.countP_eq_zero.mpr
      intro a ha
      have h4 : 4 ≤ a := (List.mem_range'_1.mp ha).1
      simp only [c5_edges_zero a y (Or.inl h4)]
      simp
    rw [h2]
    have h4' : y ≤ 4 := by omega
    interval_cases y
    · decide
    · decide
    · decide
    · decide

set_option maxRecDepth 40000 in
theorem c5_found : (detectScan c5img 101 20).found = 2 := by
  rw [detectScan_found]
  have hm : detectMargin 101 20 = 1 := by decide
  simp only [hm, show (20 - 2 * 1 : ℕ) = 18 from rfl, show (101 - 2 * 1 : ℕ) = 99 from rfl]
  have hmap : (List.range' 1 18).map
        (fun y => (List.range' 1 99).countP (fun x => qualB c5img 101 20 x y))
      = (List.range' 1 18).map (fun y => if y = 1 then 2 else 0) :=
    List.map_congr_left (fun y hy => c5_row_count y (List.mem_range'_1.mp hy).1)
  rw [hmap]
  decide

/-- C5 counterexample: a 101×20 downsampled surface with exactly two
qualifying edge pixels. The detector returns NotFound (found = 2 is below
0.1% of the full area 101·20 = 2020), yet 2 is NOT below 0.1% of the
margin-excluded scanned-area pixel count 99·18 = 1782, so the
scanned-area reading of the rejection test contradicts the code. -/
theorem scanned_area_counterexample :
    detectDocumentEdges 101 20 c5img 1 = none ∧
    ¬ (((detectScan c5img 101 20).found : ℚ) <
      (((101 - 2 * detectMargin 101 20) * (20 - 2 * detectMargin 101 20) : ℕ) : ℚ) * 0.001) := by
  constructor
  · have h2 : ((detectScan c5img 101 20).found : ℚ) < ((101 : ℕ) : ℚ) * ((20 : ℕ) : ℚ) * 0.001 := by
      rw [c5_found]
      norm_num
    unfold detectDocumentEdges
    simp only [if_pos h2]
  · rw [c5_found, show detectMargin 101 20 = 1 from by decide]
    norm_num

set_option maxRecDepth 40000 in
/-- C7 counterexample: at pixel (1,2) of the counterexample surface the
real Sobel magnitude √928 ≈ 30.46 exceeds the adaptive threshold 30, yet
the pixel does NOT qualify: the code compares the stored byte
⌊√928⌋ = 30 (a Uint8Array entry), and 30 > 30 is false. -/
theorem real_magnitude_vs_stored_byte :
    Real.sqrt (sobelMagSq (grayBlur c5img 101 20) 1 2) > detectThreshold c5img 101 20 ∧
    qualB c5img 101 20 1 2 = false := by
  constructor
  · rw [c5_threshold, (by decide : sobelMagSq (grayBlur c5img 101 20) 1 2 = 928)]
    rw [show ((928 : ℕ) : ℝ) = 928 from by norm_num]
    rw [show (30 : ℝ) = Real.sqrt (30 ^ 2) from (Real.sqrt_sq (by norm_num)).symm]
    apply Real.sqrt_lt_sqrt (by positivity)
    norm_num
  · rw [c5_qualB_iff]
    decide
